import Mathlib

/-!
# MEU message processor (`mp.go`)

A shallow embedding of the message processor: the three extractors
(`processMentions`, `processEmoticons`, `processUrls`), the title lookup
`parseTitle`, the aggregator `aggregateResult`, the coordinator
`processMsgHelper`, and the request layer `processMsg` / `handleMsg`.

Go strings are byte sequences, so a string is a list of byte values.  The
library capabilities the program calls (`regexp`, `strings.TrimSpace`, the
HTTP client, the HTML parser, `json.Marshal`) sit outside the repository; the
first two are given executable models, the others are inputs of the model.
-/

namespace MEU

/-! ## Strings -/

/-- A Go string: its bytes, each a value below 256. -/
abbrev GoString := List Nat

/-- The bytes of an ASCII literal. -/
def str (s : String) : GoString := s.toList.map Char.toNat

/-- Runtime failures that abort the whole Go program when they happen in a
goroutine without `recover`. -/
inductive Panic where
  | nilDeref
  | indexOutOfRange
  | sliceBounds
  deriving DecidableEq, Repr

instance instDecEqExcept {ε α : Type} [DecidableEq ε] [DecidableEq α] :
    DecidableEq (Except ε α)
  | .ok a, .ok b =>
    if h : a = b then isTrue (by rw [h]) else isFalse (by intro h2; cases h2; exact h rfl)
  | .error a, .error b =>
    if h : a = b then isTrue (by rw [h]) else isFalse (by intro h2; cases h2; exact h rfl)
  | .ok _, .error _ => isFalse (by intro h; cases h)
  | .error _, .ok _ => isFalse (by intro h; cases h)

/-- The index expression `s[i]`. -/
def index (s : GoString) (i : Nat) : Except Panic Nat :=
  match s.get? i with
  | some b => .ok b
  | none => .error .indexOutOfRange

/-- The slice expression `s[lo:hi]` with integer bounds. -/
def slice (s : GoString) (lo hi : Int) : Except Panic GoString :=
  if 0 ≤ lo ∧ lo ≤ hi ∧ hi ≤ (s.length : Int) then
    .ok ((s.drop lo.toNat).take (hi.toNat - lo.toNat))
  else .error .sliceBounds

/-- The slice expression `s[lo:]`. -/
def sliceFrom (s : GoString) (lo : Int) : Except Panic GoString :=
  slice s lo s.length

/-- Number of characters of a string: UTF-8 continuation bytes
(`10xxxxxx`) do not start a character. -/
def runeCount (s : GoString) : Nat :=
  (s.filter (fun b => !(128 ≤ b && b < 192))).length

/-! ## Byte classes of RE2 -/

/-- The class `\d`: ASCII digits. -/
def isDigit (b : Nat) : Bool := 48 ≤ b && b ≤ 57

/-- The class `\w`: `[0-9A-Za-z_]`. -/
def isWord (b : Nat) : Bool :=
  (48 ≤ b && b ≤ 57) || (65 ≤ b && b ≤ 90) || b == 95 || (97 ≤ b && b ≤ 122)

/-- The class `\s`: `[\t\n\f\r ]`. -/
def isSpace (b : Nat) : Bool :=
  b == 9 || b == 10 || b == 12 || b == 13 || b == 32

/-- The class `.`: anything but a line feed. -/
def isDot (b : Nat) : Bool := b != 10

/-! ## Regular expressions with leftmost-first matching -/

/-- The fragment of RE2 syntax the three patterns use.  The text is read byte
by byte: every class but `.` is ASCII, and a position inside a multi-byte
character is followed by a continuation byte, which none of `@`, `(`, `h`,
`?`, `&`, `\s` or the end of the text is, so the matches are those of a
search that reads character by character. -/
inductive Regex where
  | cls (p : Nat → Bool)
  | bot
  | eot
  | seq (a b : Regex)
  | alt (a b : Regex)
  | star (a : Regex)
  | plus (a : Regex)

/-- A position in the text: the offset and the text still ahead. -/
structure Cursor where
  pos : Nat
  rest : GoString
  deriving DecidableEq, Repr

/-- Greedy repetition of `step`: every way of doing one more round comes
before stopping here.  A round that does not advance is dropped. -/
def iter (step : Cursor → List Cursor) : Nat → Cursor → List Cursor
  | 0, c => [c]
  | fuel + 1, c =>
    (((step c).filter (fun d => c.pos < d.pos)).flatMap (iter step fuel)) ++ [c]

/-- The cursors at which a match of the expression starting at `c` can end,
in the order a backtracking search tries them. -/
def matchEnds : Regex → Cursor → List Cursor
  | .cls p, c =>
    match c.rest with
    | [] => []
    | b :: t => if p b then [⟨c.pos + 1, t⟩] else []
  | .bot, c => if c.pos = 0 then [c] else []
  | .eot, c => if c.rest.isEmpty then [c] else []
  | .seq a b, c => (matchEnds a c).flatMap (matchEnds b)
  | .alt a b, c => matchEnds a c ++ matchEnds b c
  | .star a, c => iter (matchEnds a) c.rest.length c
  | .plus a, c => (matchEnds a c).flatMap (iter (matchEnds a) c.rest.length)

/-- The first match a backtracking search finds at `c`. -/
def matchAt (re : Regex) (c : Cursor) : Option Cursor :=
  (matchEnds re c).head?

/-- The leftmost match at or after `c`: its start and its end. -/
def search (re : Regex) : Nat → Cursor → Option (Cursor × Cursor)
  | 0, c => (matchAt re c).map (fun e => (c, e))
  | fuel + 1, c =>
    match matchAt re c with
    | some e => some (c, e)
    | none =>
      match c.rest with
      | [] => none
      | _ :: t => search re fuel ⟨c.pos + 1, t⟩

/-- The loop of `allMatches` in package `regexp`: successive non-overlapping
matches; an empty match moves the search one place on and is not delivered
when it sits right after the previous match. -/
def allMatches (re : Regex) : Nat → Cursor → Option Nat → List GoString
  | 0, _, _ => []
  | fuel + 1, c, prevEnd =>
    match search re c.rest.length c with
    | none => []
    | some (s, e) =>
      let v := s.rest.take (e.pos - s.pos)
      if e.pos = c.pos then
        let out := if prevEnd = some s.pos then [] else [v]
        match c.rest with
        | [] => out
        | _ :: t => out ++ allMatches re fuel ⟨c.pos + 1, t⟩ (some e.pos)
      else v :: allMatches re fuel e (some e.pos)

/-- The call `r.FindAllString(s, -1)`. -/
def FindAllString (re : Regex) (s : GoString) : List GoString :=
  allMatches re (s.length + 1) ⟨0, s⟩ none

/-- The byte `b` itself. -/
def lit (b : Nat) : Regex := .cls (fun x => x == b)

/-- The literal string. -/
def lits : List Nat → Regex
  | [] => .star (.cls (fun _ => false))
  | [b] => lit b
  | b :: t => .seq (lit b) (lits t)

/-- The pattern `(^|\s)@\w+`. -/
def mentionRe : Regex :=
  .seq (.alt .bot (.cls isSpace)) (.seq (lit 64) (.plus (.cls isWord)))

/-- The pattern `\(\w+\)`. -/
def emoticonRe : Regex :=
  .seq (lit 40) (.seq (.plus (.cls isWord)) (lit 41))

/-- The pattern `http[s]*://(\w|\d)+(\w|-|\d|/|\.)+((\?|\&)+(.)*)*(\s|\z)`. -/
def urlRe : Regex :=
  .seq (lits (str "http"))
    (.seq (.star (lit 115))
      (.seq (lits (str "://"))
        (.seq (.plus (.alt (.cls isWord) (.cls isDigit)))
          (.seq (.plus (.alt (.cls isWord) (.alt (lit 45)
                  (.alt (.cls isDigit) (.alt (lit 47) (lit 46))))))
            (.seq (.star (.seq (.plus (.alt (lit 63) (lit 38))) (.star (.cls isDot))))
              (.alt (.cls isSpace) .eot))))))

/-! ## `strings.TrimSpace` -/

/-- The UTF-8 encodings of the runes `unicode.IsSpace` accepts: the six ASCII
ones, U+0085, U+00A0, U+1680, U+2000 to U+200A, U+2028, U+2029, U+202F,
U+205F and U+3000. -/
def spaceRunes : List GoString :=
  [[9], [10], [11], [12], [13], [32], [194, 133], [194, 160], [225, 154, 128],
   [226, 128, 128], [226, 128, 129], [226, 128, 130], [226, 128, 131],
   [226, 128, 132], [226, 128, 133], [226, 128, 134], [226, 128, 135],
   [226, 128, 136], [226, 128, 137], [226, 128, 138], [226, 128, 168],
   [226, 128, 169], [226, 128, 175], [226, 129, 159], [227, 128, 128]]

/-- Drop leading occurrences of the table entries until none is in front. -/
def trimLeftWith (table : List GoString) : Nat → GoString → GoString
  | 0, s => s
  | fuel + 1, s =>
    match table.find? (fun e => e.isPrefixOf s) with
    | some e => trimLeftWith table fuel (s.drop e.length)
    | none => s

/-- The call `strings.TrimSpace(s)`: leading and trailing white space removed. -/
def TrimSpace (s : GoString) : GoString :=
  let l := trimLeftWith spaceRunes s.length s
  (trimLeftWith (spaceRunes.map List.reverse) l.length l.reverse).reverse

/-! ## Data model -/

def MentionType : String := "mentions"
def EmoticonType : String := "emoticons"
def UrlType : String := "urls"

/-- The struct `urlInfo`. -/
structure urlInfo where
  Url : GoString
  Title : GoString
  deriving DecidableEq, Repr

/-- What travels as `interface{}` in `channelData.Value`: a `*string` or a
`*urlInfo`. -/
inductive Any where
  | str (s : GoString)
  | url (u : urlInfo)
  deriving DecidableEq, Repr

/-- The struct `channelData`. -/
structure channelData where
  DataType : String
  Value : Any
  deriving DecidableEq, Repr

/-- The type `map[string][]interface{}` as an association list with at most
one entry per key. -/
abbrev GoMap := List (String × List Any)

/-- The map read `m[k]` in its two-result form. -/
def GoMap.get (m : GoMap) (k : String) : Option (List Any) := m.lookup k

/-- The map write `m[k] = v`. -/
def GoMap.set : GoMap → String → List Any → GoMap
  | [], k, v => [(k, v)]
  | (k', v') :: rest, k, v =>
    if k' = k then (k, v) :: rest else (k', v') :: GoMap.set rest k v

/-- The struct `apiResponse`. -/
structure apiResponse where
  StatusCode : Nat
  Message : String
  Data : Option GoMap
  deriving DecidableEq, Repr

/-! ## The aggregator -/

/-- One round of the `range` loop of `aggregateResult`. -/
def aggregateStep (res : GoMap) (r : channelData) : GoMap :=
  let res1 := match res.get r.DataType with
    | some _ => res
    | none => res.set r.DataType []
  res1.set r.DataType (((res1.get r.DataType).getD []) ++ [r.Value])

/-- The function `aggregateResult` run on the items the channel delivers
before it is closed. -/
def aggregateResult (c : List channelData) (res : GoMap) : GoMap :=
  c.foldl aggregateStep res

/-! ## Per-match tasks of the mention and emoticon extractors -/

/-- The goroutine `processMentions` starts for the match `v`. -/
def mentionTask (v : GoString) : Except Panic (Option channelData) :=
  match index v 0 with
  | .error p => .error p
  | .ok b =>
    match (if b = 64 then sliceFrom v 1 else sliceFrom v 2) with
    | .error p => .error p
    | .ok t => .ok (some ⟨MentionType, .str (TrimSpace t)⟩)

/-- The goroutine `processEmoticons` starts for the match `s`, with its
argument `s[1:len(s)-1]` evaluated first. -/
def emoticonTask (s : GoString) : Except Panic (Option channelData) :=
  match slice s 1 ((s.length : Int) - 1) with
  | .error p => .error p
  | .ok e => if e.length ≠ 15 then .ok none else .ok (some ⟨EmoticonType, .str e⟩)

/-- Run one task per match and collect what the tasks send. -/
def spawnAll (task : GoString → Except Panic (Option channelData)) :
    List GoString → Except Panic (List channelData)
  | [] => .ok []
  | s :: rest =>
    match task s with
    | .error p => .error p
    | .ok r =>
      match spawnAll task rest with
      | .error p => .error p
      | .ok out => .ok (r.toList ++ out)

/-- The sends of `processMentions`. -/
def processMentions (msg : GoString) : Except Panic (List channelData) :=
  spawnAll mentionTask (FindAllString mentionRe msg)

/-- The sends of `processEmoticons`. -/
def processEmoticons (msg : GoString) : Except Panic (List channelData) :=
  spawnAll emoticonTask (FindAllString emoticonRe msg)

/-! ## The title lookup -/

/-- The constants of `html.NodeType`. -/
inductive NodeType where
  | ErrorNode
  | TextNode
  | DocumentNode
  | ElementNode
  | CommentNode
  | DoctypeNode
  deriving DecidableEq, Repr

/-- The struct `html.Node`: the `FirstChild` / `NextSibling` chain is the list
of children. -/
inductive Node where
  | mk (type : NodeType) (data : GoString) (children : List Node)

/-- The field `n.Type`. -/
def Node.type : Node → NodeType
  | .mk ty _ _ => ty

/-- The field `n.Data`. -/
def Node.data : Node → GoString
  | .mk _ d _ => d

/-- The children of a node, `n.FirstChild` first. -/
def Node.children : Node → List Node
  | .mk _ _ cs => cs

mutual
/-- The function `parseTitle`; reading `n.FirstChild.Data` when `FirstChild`
is nil is a nil pointer dereference. -/
def parseTitle : Node → Except Panic (GoString × Bool)
  | .mk ty d cs =>
    if ty = .ElementNode ∧ d = str "title" then
      match cs with
      | [] => .error .nilDeref
      | c :: _ => .ok (c.data, true)
    else parseTitleLoop cs
/-- The loop `for c := n.FirstChild; c != nil; c = c.NextSibling`. -/
def parseTitleLoop : List Node → Except Panic (GoString × Bool)
  | [] => .ok ([], false)
  | c :: rest =>
    match parseTitle c with
    | .error p => .error p
    | .ok (result, ok) => if ok then .ok (result, ok) else parseTitleLoop rest
end

/-! ## The URL extractor -/

/-- The outside world of one request: the HTTP client, the HTML parser, the
JSON encoder, and the order in which concurrent sends reach the aggregator. -/
structure World where
  /-- The call `client.Get(u)`: the response body, or nothing when `err != nil`. -/
  Get : GoString → Option GoString
  /-- The call `html.Parse(resp.Body)`: the tree, or nothing when `parseErr != nil`. -/
  Parse : GoString → Option Node
  /-- The order in which the sends of the concurrent tasks are received. -/
  arrival : List channelData → List channelData
  arrival_perm : ∀ l, (arrival l).Perm l

/-- The goroutine `processUrls` starts for the trimmed match `u`. -/
def urlTask (w : World) (u : GoString) : Except Panic (Option channelData) :=
  match w.Get u with
  | none => .ok none
  | some body =>
    match w.Parse body with
    | none => .ok none
    | some d =>
      match parseTitle d with
      | .error p => .error p
      | .ok (t, _) => .ok (some ⟨UrlType, .url ⟨u, t⟩⟩)

/-- The arguments `strings.TrimSpace(s)` that `processUrls` hands to its
fetch tasks, one per match. -/
def fetchArgs (msg : GoString) : List GoString :=
  (FindAllString urlRe msg).map TrimSpace

/-- The sends of `processUrls`. -/
def processUrls (w : World) (msg : GoString) : Except Panic (List channelData) :=
  spawnAll (urlTask w) (fetchArgs msg)

/-! ## The coordinator and the request layer -/

/-- What a run does besides returning: the functions it calls and the
requests it puts on the network. -/
inductive Effect where
  | call (fn : String)
  | httpGet (u : GoString)
  deriving DecidableEq, Repr

/-- A run of a function: its effects in order, and its result or the panic
that aborted the program. -/
structure Run (α : Type) where
  log : List Effect
  res : Except Panic α

/-- The function `processMsgHelper`: the three extractors run, their sends
reach the aggregator in some order, and the error result is always nil. -/
def processMsgHelper (w : World) (msg : GoString) : Run (GoMap × Option String) where
  log := [.call "aggregateResult", .call "processMentions", .call "processEmoticons",
    .call "processUrls"] ++ (fetchArgs msg).map .httpGet
  res :=
    match processMentions msg with
    | .error p => .error p
    | .ok ms =>
      match processEmoticons msg with
      | .error p => .error p
      | .ok es =>
        match processUrls w msg with
        | .error p => .error p
        | .ok us => .ok (aggregateResult (w.arrival (ms ++ es ++ us)) [], none)

/-- The part of `http.Request` the program reads. -/
structure Request where
  Method : String
  Form : List (String × List GoString)

/-- The call `r.FormValue(key)`: the first value of the key, or the empty
string. -/
def Request.FormValue (r : Request) (key : String) : GoString :=
  match r.Form.lookup key with
  | some (v :: _) => v
  | _ => []

def StatusOK : Nat := 200
def StatusBadRequest : Nat := 400
def StatusMethodNotAllowed : Nat := 405
def StatusRequestTimeout : Nat := 408
def StatusInternalServerError : Nat := 500

/-- The function `processMsg`. -/
def processMsg (w : World) (r : Request) : Run apiResponse :=
  let msg := r.FormValue "message"
  if msg.length = 0 then
    ⟨[], .ok ⟨StatusBadRequest, "Empty Body in the Request", none⟩⟩
  else
    let h := processMsgHelper w msg
    ⟨.call "processMsgHelper" :: h.log,
      match h.res with
      | .error p => .error p
      | .ok (respData, err) =>
        if err.isSome then .ok ⟨StatusInternalServerError, "Server Error", none⟩
        else .ok ⟨StatusOK, "", some respData⟩⟩

/-- What `ToWriter` passes to `json.Marshal`. -/
inductive RespData where
  | null
  | message (s : String)
  | data (m : GoMap)
  deriving DecidableEq, Repr

/-- What is written to an `http.ResponseWriter`, in order. -/
inductive Write where
  | header (code : Nat)
  | setHeader (key value : String)
  | error (msg : String) (code : Nat)
  | json (d : RespData)
  | raw (s : String)
  deriving DecidableEq, Repr

/-- The method `ToWriter`; `marshalFails` tells whether `json.Marshal`
returns an error for the value. -/
def apiResponse.ToWriter (r : apiResponse) (marshalFails : RespData → Bool) : List Write :=
  let respData : RespData :=
    if r.StatusCode = StatusOK then
      match r.Data with
      | some m => .data m
      | none => .null
    else if r.StatusCode ≥ 400 ∧ r.StatusCode < 500 then .message r.Message
    else .null
  [.header r.StatusCode] ++
    (if marshalFails respData then
      [.raw "\x7b\"code\": 500, \"message\": \"Failed to marshal response\"\x7d"]
    else [.setHeader "Content-Type" "application/json; charset=UTF-8", .json respData])

/-- The function `handleMsg`: what it writes to `w`, and its effects.
`deadlineFirst` tells which case of the `select` is taken. -/
def handleMsg (w : World) (marshalFails : RespData → Bool) (deadlineFirst : Bool)
    (r : Request) : Run (List Write) :=
  let w1 : List Write :=
    if r.Method ≠ "POST" then [.error "Method Not Allowed" StatusMethodNotAllowed] else []
  let p := processMsg w r
  ⟨.call "processMsg" :: p.log,
    match p.res with
    | .error e => .error e
    | .ok resp =>
      if deadlineFirst then .ok (w1 ++ [.error "Timed out" StatusRequestTimeout])
      else .ok (w1 ++ resp.ToWriter marshalFails)⟩

/-! ## The coordinator as interleaved goroutines

`processMsgHelper` runs one aggregator goroutine, three extractor goroutines
and one goroutine per match, joined by the wait groups `wgProc`, `wgLocal`
(one per extractor) and `wgAgg` around the unbuffered channel `ch`.  A
configuration records where each goroutine stands; an action is one
synchronisation step of one goroutine. -/

/-- The three extractors `processMentions`, `processEmoticons`, `processUrls`. -/
inductive Kind where
  | mention
  | emoticon
  | url
  deriving DecidableEq, Repr

/-- What the body of a per-match goroutine comes to: a panic, a return
without a send, or a value to send on the channel. -/
abbrev Outcome := Except Panic (Option channelData)

/-- The values a list of per-match goroutines will send. -/
def sendsOf (l : List Outcome) : List channelData :=
  l.filterMap (fun o =>
    match o with
    | .ok (some v) => some v
    | _ => none)

/-- Where an extractor goroutine stands: before `FindAllString`, in
`wgLocal.Wait()`, or returned with its deferred `wg.Done()` run. -/
inductive ExtPc where
  | start
  | waiting
  | done
  deriving DecidableEq, Repr

/-- An extractor and the per-match goroutines it spawned. -/
structure Ext where
  pc : ExtPc
  /-- Per-match goroutines that have reached neither their send nor their return. -/
  todo : List Outcome
  /-- Per-match goroutines blocked in `c <- cD`. -/
  sending : List channelData
  /-- Per-match goroutines past their send, with the deferred `wgL.Done()` to run. -/
  sent : Nat
  /-- The counter of `wgLocal`. -/
  wgLocal : Nat

/-- Where `processMsgHelper` itself stands: in `wgProc.Wait()`, before
`close(ch)`, in `wgAgg.Wait()`, or returned. -/
inductive MainPc where
  | waitProc
  | closing
  | waitAgg
  | returned
  deriving DecidableEq, Repr

/-- Where `aggregateResult` stands: at the receive of its `range` loop, in the
loop body with the item received, or returned. -/
inductive AggPc where
  | ranging
  | holding (r : channelData)
  | done
  deriving DecidableEq, Repr

/-- The ways the program can abort. -/
inductive Crash where
  | panic (p : Panic)
  | sendOnClosed
  | negativeCounter
  deriving DecidableEq, Repr

/-- A configuration of the goroutines of one `processMsgHelper` call. -/
structure Config where
  main : MainPc
  agg : AggPc
  ext : Kind → Ext
  wgProc : Nat
  wgAgg : Nat
  closed : Bool
  respData : GoMap
  crash : Option Crash

/-- The configuration when `processMsgHelper` reaches `wgProc.Wait()`: the map
and the channel made, `wgAgg.Add(1)` and `wgProc.Add(3)` done, the aggregator
and the three extractors started and none of them having taken a step. -/
def Config.init : Config where
  main := .waitProc
  agg := .ranging
  ext := fun _ => ⟨.start, [], [], 0, 0⟩
  wgProc := 3
  wgAgg := 1
  closed := false
  respData := []
  crash := none

/-- One synchronisation step of one goroutine. -/
inductive Action where
  /-- An extractor finds its matches, does `wgLocal.Add(len(res))`, and starts
  one goroutine per match. -/
  | extStart (k : Kind)
  /-- A per-match goroutine runs up to its send, its return, or its panic. -/
  | taskRun (k : Kind) (o : Outcome)
  /-- A per-match goroutine hands its value to the aggregator on `ch`. -/
  | send (k : Kind) (v : channelData)
  /-- A per-match goroutine returns after its send: deferred `wgL.Done()`. -/
  | taskDone (k : Kind)
  /-- `wgLocal.Wait()` returns and the extractor returns: deferred `wg.Done()`. -/
  | extDone (k : Kind)
  /-- The loop body of `aggregateResult` stores the item it received. -/
  | aggStore
  /-- The `range` loop of `aggregateResult` ends on the closed channel:
  deferred `wg.Done()`. -/
  | aggExit
  /-- `wgProc.Wait()` returns. -/
  | mainWait
  /-- The statement `close(ch)`. -/
  | mainClose
  /-- `wgAgg.Wait()` returns and `processMsgHelper` returns `respData`. -/
  | mainJoin
  deriving DecidableEq, Repr

/-- The program aborts. -/
def Config.crashWith (c : Config) (x : Crash) : Config := { c with crash := some x }

/-- The state of one extractor replaced. -/
def Config.setExt (c : Config) (k : Kind) (e : Ext) : Config :=
  { c with ext := Function.update c.ext k e }

/-- The effect of an action, or nothing when the action cannot be taken.
`tasks k` lists what the per-match goroutines of extractor `k` come to. -/
def step (tasks : Kind → List Outcome) (c : Config) (a : Action) : Option Config :=
  if c.crash.isSome then none
  else
    match a with
    | .extStart k =>
      match (c.ext k).pc with
      | .start =>
        some (c.setExt k
          { c.ext k with pc := .waiting, todo := tasks k, wgLocal := (tasks k).length })
      | _ => none
    | .taskRun k o =>
      if o ∈ (c.ext k).todo then
        match o with
        | .error p => some (c.crashWith (.panic p))
        | .ok none =>
          match (c.ext k).wgLocal with
          | 0 => some (c.crashWith .negativeCounter)
          | n + 1 =>
            some (c.setExt k { c.ext k with todo := (c.ext k).todo.erase o, wgLocal := n })
        | .ok (some v) =>
          some (c.setExt k
            { c.ext k with todo := (c.ext k).todo.erase o, sending := v :: (c.ext k).sending })
      else none
    | .send k v =>
      if v ∈ (c.ext k).sending then
        if c.closed then some (c.crashWith .sendOnClosed)
        else
          match c.agg with
          | .ranging =>
            some { c.setExt k { c.ext k with
                sending := (c.ext k).sending.erase v, sent := (c.ext k).sent + 1 } with
              agg := .holding v }
          | _ => none
      else none
    | .taskDone k =>
      match (c.ext k).sent with
      | 0 => none
      | s + 1 =>
        match (c.ext k).wgLocal with
        | 0 => some (c.crashWith .negativeCounter)
        | n + 1 => some (c.setExt k { c.ext k with sent := s, wgLocal := n })
    | .extDone k =>
      match (c.ext k).pc with
      | .waiting =>
        if (c.ext k).wgLocal = 0 then
          match c.wgProc with
          | 0 => some (c.crashWith .negativeCounter)
          | n + 1 => some { c.setExt k { c.ext k with pc := .done } with wgProc := n }
        else none
      | _ => none
    | .aggStore =>
      match c.agg with
      | .holding r => some { c with agg := .ranging, respData := aggregateStep c.respData r }
      | _ => none
    | .aggExit =>
      match c.agg with
      | .ranging =>
        if c.closed then
          match c.wgAgg with
          | 0 => some (c.crashWith .negativeCounter)
          | n + 1 => some { c with agg := .done, wgAgg := n }
        else none
      | _ => none
    | .mainWait =>
      match c.main with
      | .waitProc => if c.wgProc = 0 then some { c with main := .closing } else none
      | _ => none
    | .mainClose =>
      match c.main with
      | .closing => some { c with main := .waitAgg, closed := true }
      | _ => none
    | .mainJoin =>
      match c.main with
      | .waitAgg => if c.wgAgg = 0 then some { c with main := .returned } else none
      | _ => none

/-- A run: the actions taken one after the other. -/
def exec (tasks : Kind → List Outcome) (c : Config) : List Action → Option Config
  | [] => some c
  | a :: rest =>
    match step tasks c a with
    | none => none
    | some c1 => exec tasks c1 rest

/-- What the per-match goroutines of each extractor come to for a message. -/
def tasksOf (w : World) (msg : GoString) : Kind → List Outcome
  | .mention => (FindAllString mentionRe msg).map mentionTask
  | .emoticon => (FindAllString emoticonRe msg).map emoticonTask
  | .url => (fetchArgs msg).map (urlTask w)

/-- Every value the producers of a call send. -/
def allSends (tasks : Kind → List Outcome) : List channelData :=
  sendsOf (tasks .mention) ++ sendsOf (tasks .emoticon) ++ sendsOf (tasks .url)

/-! ## Specification-side notions -/

/-- Declarative reading of the expressions: `Den r c e` says that `r` matches
the text between the cursors `c` and `e`. -/
inductive Den : Regex → Cursor → Cursor → Prop
  | cls {p : Nat → Bool} {b : Nat} {t : GoString} {n : Nat} :
      p b = true → Den (.cls p) ⟨n, b :: t⟩ ⟨n + 1, t⟩
  | bot {r : GoString} : Den .bot ⟨0, r⟩ ⟨0, r⟩
  | eot {n : Nat} : Den .eot ⟨n, []⟩ ⟨n, []⟩
  | seq {a b : Regex} {c d e : Cursor} : Den a c d → Den b d e → Den (.seq a b) c e
  | altL {a b : Regex} {c e : Cursor} : Den a c e → Den (.alt a b) c e
  | altR {a b : Regex} {c e : Cursor} : Den b c e → Den (.alt a b) c e
  | starNil {a : Regex} {c : Cursor} : Den (.star a) c c
  | starCons {a : Regex} {c d e : Cursor} :
      Den a c d → Den (.star a) d e → Den (.star a) c e
  | plus {a : Regex} {c d e : Cursor} :
      Den a c d → Den (.star a) d e → Den (.plus a) c e

/-- The text `w` lies between the cursors `c` and `e`. -/
def Span (c e : Cursor) (w : GoString) : Prop :=
  c.rest = w ++ e.rest ∧ e.pos = c.pos + w.length

/-- A match without its first and its last character. -/
def inner (s : GoString) : GoString := s.tail.dropLast

/-- The values of the items of category `k`, in arrival order. -/
def valuesOf (items : List channelData) (k : String) : List Any :=
  (items.filter (fun r => r.DataType = k)).map (fun r => r.Value)

mutual
/-- The nodes of a tree in pre-order depth-first order. -/
def preorder : Node → List Node
  | .mk ty d cs => .mk ty d cs :: preorderList cs
/-- The nodes of a forest in pre-order depth-first order. -/
def preorderList : List Node → List Node
  | [] => []
  | c :: rest => preorder c ++ preorderList rest
end

/-- A `title` element. -/
def isTitle (n : Node) : Bool :=
  decide (n.type = .ElementNode ∧ n.data = str "title")

/-- The first `title` element of a tree in pre-order. -/
def firstTitle (n : Node) : Option Node := (preorder n).find? isTitle

/-- The text content of a node: the data of the text nodes below it, in
document order. -/
def textContent (n : Node) : GoString :=
  ((preorder n).filter (fun x => decide (x.type = .TextNode))).flatMap Node.data

/-- What `parseTitle` does with the first `title` element, if any. -/
def titleResult : Option Node → Except Panic (GoString × Bool)
  | none => .ok ([], false)
  | some n =>
    match n.children with
    | [] => .error .nilDeref
    | c :: _ => .ok (c.data, true)

/-- The string starts with the given bytes (`strings.HasPrefix`). -/
def startsWith (p s : GoString) : Bool := p.isPrefixOf s

/-! ## Sample inputs -/

/-- An element node. -/
def element (tag : String) (cs : List Node) : Node := .mk .ElementNode (str tag) cs

/-- A text node. -/
def text (s : String) : Node := .mk .TextNode (str s) []

/-- The tree of `<html><head><title>CNN</title></head><body>x</body></html>`. -/
def titledDoc : Node :=
  .mk .DocumentNode [] [element "html"
    [element "head" [element "title" [text "CNN"]], element "body" [text "x"]]]

/-- The tree of `<html><head><title></title></head><body></body></html>`: the
`title` element has no child. -/
def emptyTitleDoc : Node :=
  .mk .DocumentNode [] [element "html" [element "head" [element "title" []], element "body" []]]

/-- A tree whose `title` element has two text children. -/
def splitTitleDoc : Node :=
  .mk .DocumentNode [] [element "html"
    [element "head" [element "title" [text "Hello, ", text "world"]], element "body" []]]

/-- A world without network: every fetch fails. -/
def offline : World where
  Get := fun _ => none
  Parse := fun _ => none
  arrival := id
  arrival_perm := fun _ => List.Perm.refl _

/-- A world in which every fetch succeeds and every page parses to the given
tree. -/
def serving (d : Node) : World where
  Get := fun _ => some []
  Parse := fun _ => some d
  arrival := id
  arrival_perm := fun _ => List.Perm.refl _

/-- A POST request carrying the message. -/
def post (msg : String) : Request := ⟨"POST", [("message", [str msg])]⟩

/-- A GET request carrying the message. -/
def get (msg : String) : Request := ⟨"GET", [("message", [str msg])]⟩

/-- The per-match goroutines of the message `hi @bob (emoticonnnnnnnn)`. -/
def sampleTasks : Kind → List Outcome := tasksOf offline (str "hi @bob (emoticonnnnnnnn)")

/-- A run of the coordinator on that message in which the emoticon arrives
before the mention. -/
def sampleSchedule : List Action :=
  [.extStart .mention, .extStart .emoticon, .extStart .url, .extDone .url,
    .taskRun .mention (.ok (some ⟨MentionType, .str (str "bob")⟩)),
    .taskRun .emoticon (.ok (some ⟨EmoticonType, .str (str "emoticonnnnnnnn")⟩)),
    .send .emoticon ⟨EmoticonType, .str (str "emoticonnnnnnnn")⟩, .aggStore,
    .send .mention ⟨MentionType, .str (str "bob")⟩, .taskDone .emoticon, .aggStore,
    .taskDone .mention, .extDone .mention, .extDone .emoticon,
    .mainWait, .mainClose, .aggExit, .mainJoin]

/-! ## Invariant of the interleaved coordinator -/

/-- The sends an extractor and its per-match goroutines still owe. -/
def Ext.owed (ts : List Outcome) (e : Ext) : Multiset channelData :=
  match e.pc with
  | .start => (sendsOf ts : Multiset channelData)
  | _ => (sendsOf e.todo : Multiset channelData) + (e.sending : Multiset channelData)

/-- One for an extractor that has not done its `wg.Done()`. -/
def Ext.live (e : Ext) : Nat :=
  match e.pc with
  | .done => 0
  | _ => 1

/-- The counter of `wgLocal` counts the per-match goroutines not yet done. -/
def Ext.ok (e : Ext) : Prop :=
  match e.pc with
  | .waiting => e.wgLocal = e.todo.length + e.sending.length + e.sent
  | _ => e.todo = [] ∧ e.sending = [] ∧ e.sent = 0 ∧ e.wgLocal = 0

/-- The item the aggregator has received and not yet stored. -/
def AggPc.held : AggPc → Multiset channelData
  | .holding r => {r}
  | _ => 0

/-- The channel is open until `processMsgHelper` has passed `wgProc.Wait()`. -/
def Config.mainOk (c : Config) : Prop :=
  match c.main with
  | .waitProc => c.closed = false
  | .closing => c.closed = false ∧ c.wgProc = 0
  | .waitAgg => c.closed = true ∧ c.wgProc = 0
  | .returned => c.closed = true ∧ c.wgProc = 0 ∧ c.wgAgg = 0

/-- The counter of `wgAgg` is one until the aggregator returns, which it does
on a closed channel only. -/
def Config.aggOk (c : Config) : Prop :=
  match c.agg with
  | .done => c.wgAgg = 0 ∧ c.closed = true
  | _ => c.wgAgg = 1

/-- The invariant of the coordinator. -/
structure Inv (tasks : Kind → List Outcome) (c : Config) : Prop where
  ext_ok : ∀ k, (c.ext k).ok
  proc : c.wgProc = (c.ext .mention).live + (c.ext .emoticon).live + (c.ext .url).live
  main_ok : c.mainOk
  agg_ok : c.aggOk
  recv : ∃ recv : List channelData, c.respData = aggregateResult recv [] ∧
    (recv : Multiset channelData) + c.agg.held +
      ((c.ext .mention).owed (tasks .mention) + (c.ext .emoticon).owed (tasks .emoticon) +
        (c.ext .url).owed (tasks .url)) = (allSends tasks : Multiset channelData)
  todo_sub : ∀ k, ∀ o ∈ (c.ext k).todo, o ∈ tasks k
  crash_ok : ∀ x, c.crash = some x → ∃ p k, x = .panic p ∧ .error p ∈ tasks k

/-- The steps an extractor and its per-match goroutines still have to take. -/
def Ext.weight (ts : List Outcome) (e : Ext) : Nat :=
  (match e.pc with
    | .start => 4 * ts.length + 2
    | .waiting => 1
    | .done => 0) + 4 * e.todo.length + 3 * e.sending.length + e.sent

/-- The steps the aggregator still has to take by itself. -/
def AggPc.weight : AggPc → Nat
  | .ranging => 1
  | .holding _ => 2
  | .done => 0

/-- The steps `processMsgHelper` still has to take by itself. -/
def MainPc.weight : MainPc → Nat
  | .waitProc => 3
  | .closing => 2
  | .waitAgg => 1
  | .returned => 0

/-- A bound on the number of steps a configuration can still take. -/
def Config.weight (tasks : Kind → List Outcome) (c : Config) : Nat :=
  if c.crash.isSome then 0
  else 1 + c.main.weight + c.agg.weight + ((c.ext .mention).weight (tasks .mention) +
    (c.ext .emoticon).weight (tasks .emoticon) + (c.ext .url).weight (tasks .url))

/-- A configuration in which the call is over: returned, or aborted. -/
def Config.final (c : Config) : Prop := c.main = .returned ∨ c.crash ≠ none

/-! ## The matcher is sound for the declarative reading -/

theorem iter_sound {a : Regex} {step : Cursor → List Cursor}
    (hstep : ∀ c d, d ∈ step c → Den a c d) :
    ∀ (fuel : Nat) (c e : Cursor), e ∈ iter step fuel c → Den (.star a) c e := by
  intro fuel
  induction fuel with
  | zero =>
    intro c e h
    simp [iter] at h
    subst h
    exact Den.starNil
  | succ n ih =>
    intro c e h
    simp only [iter, List.mem_append, List.mem_flatMap, List.mem_filter,
      List.mem_singleton] at h
    rcases h with ⟨d, ⟨hd, _⟩, he⟩ | h
    · exact Den.starCons (hstep c d hd) (ih d e he)
    · subst h
      exact Den.starNil

theorem matchEnds_sound : ∀ (r : Regex) (c e : Cursor), e ∈ matchEnds r c → Den r c e := by
  intro r
  induction r with
  | cls p =>
    intro c e h
    obtain ⟨n, rest⟩ := c
    cases rest with
    | nil => simp [matchEnds] at h
    | cons b t =>
      by_cases hp : p b = true
      · simp [matchEnds, hp] at h
        subst h
        exact Den.cls hp
      · simp [matchEnds, hp] at h
  | bot =>
    intro c e h
    obtain ⟨n, rest⟩ := c
    by_cases hn : n = 0
    · subst hn
      simp [matchEnds] at h
      subst h
      exact Den.bot
    · simp [matchEnds, hn] at h
  | eot =>
    intro c e h
    obtain ⟨n, rest⟩ := c
    cases rest with
    | nil =>
      simp [matchEnds] at h
      subst h
      exact Den.eot
    | cons b t => simp [matchEnds] at h
  | seq a b iha ihb =>
    intro c e h
    simp only [matchEnds, List.mem_flatMap] at h
    obtain ⟨d, hd, he⟩ := h
    exact Den.seq (iha c d hd) (ihb d e he)
  | alt a b iha ihb =>
    intro c e h
    simp only [matchEnds, List.mem_append] at h
    rcases h with h | h
    · exact Den.altL (iha c e h)
    · exact Den.altR (ihb c e h)
  | star a iha =>
    intro c e h
    simp only [matchEnds] at h
    exact iter_sound iha _ c e h
  | plus a iha =>
    intro c e h
    simp only [matchEnds, List.mem_flatMap] at h
    obtain ⟨d, hd, he⟩ := h
    exact Den.plus (iha c d hd) (iter_sound iha _ d e he)

theorem Span.take {c e : Cursor} {w : GoString} (h : Span c e w) :
    c.rest.take (e.pos - c.pos) = w := by
  obtain ⟨h1, h2⟩ := h
  rw [h1, h2]
  simp

theorem Span.trans {c d e : Cursor} {u v : GoString} (h1 : Span c d u) (h2 : Span d e v) :
    Span c e (u ++ v) := by
  obtain ⟨a1, a2⟩ := h1
  obtain ⟨b1, b2⟩ := h2
  refine ⟨?_, ?_⟩
  · rw [a1, b1, List.append_assoc]
  · rw [b2, a2, List.length_append, Nat.add_assoc]

theorem den_cls {p : Nat → Bool} {c e : Cursor} (h : Den (.cls p) c e) :
    ∃ b, p b = true ∧ Span c e [b] := by
  cases h with
  | cls hp => exact ⟨_, hp, rfl, rfl⟩

theorem den_lit {b : Nat} {c e : Cursor} (h : Den (lit b) c e) : Span c e [b] := by
  obtain ⟨x, hx, hs⟩ := den_cls h
  simp at hx
  subst hx
  exact hs

theorem den_star_cls {p : Nat → Bool} {c e : Cursor} (h : Den (.star (.cls p)) c e) :
    ∃ w, (∀ b ∈ w, p b = true) ∧ Span c e w := by
  generalize hr : Regex.star (.cls p) = r at h
  induction h with
  | cls _ => cases hr
  | bot => cases hr
  | eot => cases hr
  | seq _ _ _ _ => cases hr
  | altL _ _ => cases hr
  | altR _ _ => cases hr
  | plus _ _ _ _ => cases hr
  | starNil => exact ⟨[], by simp, by simp [Span]⟩
  | starCons h1 _ _ ih2 =>
    cases hr
    obtain ⟨b, hb, hs1⟩ := den_cls h1
    obtain ⟨w, hw, hs2⟩ := ih2 rfl
    refine ⟨[b] ++ w, ?_, hs1.trans hs2⟩
    intro x hx
    simp at hx
    rcases hx with hx | hx
    · subst hx; exact hb
    · exact hw x hx

theorem den_plus_cls {p : Nat → Bool} {c e : Cursor} (h : Den (.plus (.cls p)) c e) :
    ∃ w, w ≠ [] ∧ (∀ b ∈ w, p b = true) ∧ Span c e w := by
  cases h with
  | plus h1 h2 =>
    obtain ⟨b, hb, hs1⟩ := den_cls h1
    obtain ⟨w, hw, hs2⟩ := den_star_cls h2
    refine ⟨[b] ++ w, by simp, ?_, hs1.trans hs2⟩
    intro x hx
    simp at hx
    rcases hx with hx | hx
    · subst hx; exact hb
    · exact hw x hx

theorem search_sound (re : Regex) :
    ∀ (fuel : Nat) (c s e : Cursor), search re fuel c = some (s, e) →
      e ∈ matchEnds re s ∧ c.pos ≤ s.pos := by
  intro fuel
  induction fuel with
  | zero =>
    intro c s e h
    simp only [search, matchAt] at h
    cases hm : (matchEnds re c).head? with
    | none => rw [hm] at h; simp at h
    | some x =>
      rw [hm] at h
      simp at h
      obtain ⟨h1, h2⟩ := h
      subst h1; subst h2
      exact ⟨List.mem_of_mem_head? hm, le_refl _⟩
  | succ n ih =>
    intro c s e h
    simp only [search, matchAt] at h
    cases hm : (matchEnds re c).head? with
    | some x =>
      rw [hm] at h
      simp at h
      obtain ⟨h1, h2⟩ := h
      subst h1; subst h2
      exact ⟨List.mem_of_mem_head? hm, le_refl _⟩
    | none =>
      rw [hm] at h
      obtain ⟨n0, rest⟩ := c
      cases rest with
      | nil => simp at h
      | cons b t =>
        simp only at h
        have := ih _ s e h
        exact ⟨this.1, by have := this.2; simp at this; simp; omega⟩

theorem allMatches_sound (re : Regex) :
    ∀ (fuel : Nat) (c : Cursor) (prev : Option Nat) (v : GoString),
      v ∈ allMatches re fuel c prev →
      ∃ s e, e ∈ matchEnds re s ∧ v = s.rest.take (e.pos - s.pos) := by
  intro fuel
  induction fuel with
  | zero => intro c prev v h; simp [allMatches] at h
  | succ n ih =>
    intro c prev v h
    simp only [allMatches] at h
    cases hs : search re c.rest.length c with
    | none => rw [hs] at h; simp at h
    | some se =>
      obtain ⟨s, e⟩ := se
      rw [hs] at h
      have hsound := (search_sound re _ c s e hs).1
      simp only at h
      split at h
      · cases hrest : c.rest with
        | nil =>
          rw [hrest] at h
          simp only at h
          split at h
          · simp at h
          · simp at h; exact ⟨s, e, hsound, h⟩
        | cons b t =>
          rw [hrest] at h
          simp only [List.mem_append] at h
          rcases h with h | h
          · split at h
            · simp at h
            · simp at h; exact ⟨s, e, hsound, h⟩
          · exact ih _ _ v h
      · simp only [List.mem_cons] at h
        rcases h with h | h
        · exact ⟨s, e, hsound, h⟩
        · exact ih _ _ v h

theorem FindAllString_sound (re : Regex) (msg v : GoString) (h : v ∈ FindAllString re msg) :
    ∃ s e, Den re s e ∧ v = s.rest.take (e.pos - s.pos) := by
  obtain ⟨s, e, h1, h2⟩ := allMatches_sound re _ _ _ v h
  exact ⟨s, e, matchEnds_sound re s e h1, h2⟩

theorem emoticon_shape (msg v : GoString) (h : v ∈ FindAllString emoticonRe msg) :
    ∃ w, w ≠ [] ∧ (∀ b ∈ w, isWord b = true) ∧ v = 40 :: (w ++ [41]) := by
  obtain ⟨s, e, hd, hv⟩ := FindAllString_sound _ _ _ h
  unfold emoticonRe at hd
  cases hd with
  | seq h1 h23 =>
    cases h23 with
    | seq h2 h3 =>
      have s1 := den_lit h1
      obtain ⟨w, hne, hw, s2⟩ := den_plus_cls h2
      have s3 := den_lit h3
      have := ((s1.trans s2).trans s3).take
      rw [this] at hv
      exact ⟨w, hne, hw, by simpa using hv⟩

theorem mention_shape (msg v : GoString) (h : v ∈ FindAllString mentionRe msg) :
    ∃ w, w ≠ [] ∧ (∀ b ∈ w, isWord b = true) ∧
      (v = 64 :: w ∨ ∃ sp, isSpace sp = true ∧ v = sp :: 64 :: w) := by
  obtain ⟨s, e, hd, hv⟩ := FindAllString_sound _ _ _ h
  unfold mentionRe at hd
  cases hd with
  | seq h1 h23 =>
    cases h23 with
    | seq h2 h3 =>
      have s2 := den_lit h2
      obtain ⟨w, hne, hw, s3⟩ := den_plus_cls h3
      refine ⟨w, hne, hw, ?_⟩
      cases h1 with
      | altL hb =>
        cases hb
        left
        have := (s2.trans s3).take
        rw [this] at hv
        simpa using hv
      | altR hsp =>
        obtain ⟨sp, hsp, s1⟩ := den_cls hsp
        right
        have := ((s1.trans s2).trans s3).take
        rw [this] at hv
        exact ⟨sp, hsp, by simpa using hv⟩

theorem isWord_range {b : Nat} (h : isWord b = true) : 48 ≤ b ∧ b ≤ 122 := by
  simp [isWord] at h
  omega

theorem spaceRunes_bytes : ∀ e ∈ spaceRunes, ∀ x ∈ e, x < 33 ∨ 128 ≤ x := by
  decide

theorem spaceRunes_ne_nil : ∀ e ∈ spaceRunes, e ≠ [] := by
  decide

theorem spaceRunes_rev_bytes : ∀ e ∈ spaceRunes.map List.reverse, ∀ x ∈ e, x < 33 ∨ 128 ≤ x := by
  decide

theorem spaceRunes_rev_ne_nil : ∀ e ∈ spaceRunes.map List.reverse, e ≠ [] := by
  decide

theorem trimLeftWith_keep (table : List GoString)
    (hb : ∀ e ∈ table, ∀ x ∈ e, x < 33 ∨ 128 ≤ x) (hn : ∀ e ∈ table, e ≠ [])
    (b : Nat) (t : GoString) (h1 : 33 ≤ b) (h2 : b < 128) (fuel : Nat) :
    trimLeftWith table fuel (b :: t) = b :: t := by
  cases fuel with
  | zero => rfl
  | succ n =>
    have hnone : table.find? (fun e => e.isPrefixOf (b :: t)) = none := by
      rw [List.find?_eq_none]
      intro e he
      cases e with
      | nil => exact absurd rfl (hn _ he)
      | cons x xs =>
        have hx := hb _ he x (by simp)
        have : x ≠ b := by omega
        simp [List.isPrefixOf, this]
    simp [trimLeftWith, hnone]

theorem TrimSpace_keep (w : GoString) (hw : ∀ b ∈ w, 33 ≤ b ∧ b < 128) : TrimSpace w = w := by
  unfold TrimSpace
  cases w with
  | nil => simp [trimLeftWith]
  | cons b t =>
    have h1 := hw b (by simp)
    simp only
    rw [trimLeftWith_keep spaceRunes spaceRunes_bytes spaceRunes_ne_nil b t h1.1 h1.2]
    cases hr : (b :: t).reverse with
    | nil => simp at hr
    | cons y ys =>
      have hy : y ∈ b :: t := by
        have : y ∈ (b :: t).reverse := by rw [hr]; simp
        exact List.mem_reverse.mp this
      have h2 := hw y hy
      rw [trimLeftWith_keep _ spaceRunes_rev_bytes spaceRunes_rev_ne_nil y ys h2.1 h2.2]
      rw [← hr, List.reverse_reverse]

theorem TrimSpace_word (w : GoString) (hw : ∀ b ∈ w, isWord b = true) : TrimSpace w = w :=
  TrimSpace_keep w (fun b hb => by have := isWord_range (hw b hb); omega)

theorem runeCount_word (w : GoString) (hw : ∀ b ∈ w, isWord b = true) :
    runeCount w = w.length := by
  unfold runeCount
  congr 1
  rw [List.filter_eq_self]
  intro b hb
  have := isWord_range (hw b hb)
  have h : ¬ (128 ≤ b) := by omega
  simp [h]

theorem emoticonTask_shape (w : GoString) (hw : ∀ b ∈ w, isWord b = true) :
    emoticonTask (40 :: (w ++ [41])) =
      .ok (if runeCount (inner (40 :: (w ++ [41]))) = 15
        then some ⟨EmoticonType, .str (inner (40 :: (w ++ [41])))⟩ else none) := by
  have hin : inner (40 :: (w ++ [41])) = w := by simp [inner]
  rw [hin, runeCount_word w hw]
  have hs : slice (40 :: (w ++ [41])) 1 (((40 :: (w ++ [41])).length : Int) - 1) = .ok w := by
    unfold slice
    have h1 : (0 : Int) ≤ 1 ∧ (1 : Int) ≤ ((40 :: (w ++ [41])).length : Int) - 1 ∧
        ((40 :: (w ++ [41])).length : Int) - 1 ≤ ((40 :: (w ++ [41])).length : Int) := by
      simp
    rw [if_pos h1]
    have h2 : (((40 :: (w ++ [41])).length : Int) - 1).toNat - (1 : Int).toNat = w.length := by
      simp
    rw [h2]
    simp
  unfold emoticonTask
  rw [hs]
  by_cases h : w.length = 15
  · simp [h]
  · simp [h]

theorem spawnAll_eq (task : GoString → Except Panic (Option channelData))
    (f : GoString → Option channelData) :
    ∀ (l : List GoString), (∀ s ∈ l, task s = .ok (f s)) →
      spawnAll task l = .ok (l.filterMap f) := by
  intro l
  induction l with
  | nil => intro _; rfl
  | cons s rest ih =>
    intro h
    have h1 := h s (by simp)
    have h2 := ih (fun x hx => h x (by simp [hx]))
    simp only [spawnAll, h1, h2]
    cases hf : f s <;> simp [List.filterMap_cons, hf]

/-- C1. Each match of the emoticon pattern makes `processEmoticons` send its
inner text exactly when that inner text is 15 characters long, and send
nothing otherwise; the sends of `processEmoticons` are these and no others. -/
theorem processEmoticons_sends_iff_fifteen (msg : GoString) :
    (∀ s ∈ FindAllString emoticonRe msg,
      emoticonTask s = .ok (if runeCount (inner s) = 15
        then some ⟨EmoticonType, .str (inner s)⟩ else none)) ∧
    processEmoticons msg = .ok ((FindAllString emoticonRe msg).filterMap (fun s =>
      if runeCount (inner s) = 15 then some ⟨EmoticonType, .str (inner s)⟩ else none)) := by
  have h : ∀ s ∈ FindAllString emoticonRe msg,
      emoticonTask s = .ok (if runeCount (inner s) = 15
        then some ⟨EmoticonType, .str (inner s)⟩ else none) := by
    intro s hs
    obtain ⟨w, _, hw, rfl⟩ := emoticon_shape msg s hs
    exact emoticonTask_shape w hw
  exact ⟨h, spawnAll_eq _ _ _ h⟩

theorem mentionTask_shape (v w : GoString) (hw : ∀ b ∈ w, isWord b = true)
    (hv : v = 64 :: w ∨ ∃ sp, isSpace sp = true ∧ v = sp :: 64 :: w) :
    mentionTask v = .ok (some ⟨MentionType, .str w⟩) := by
  rcases hv with rfl | ⟨sp, hsp, rfl⟩
  · have hs : sliceFrom (64 :: w) 1 = .ok w := by
      unfold sliceFrom slice
      have h1 : (0 : Int) ≤ 1 ∧ (1 : Int) ≤ ((64 :: w).length : Int) ∧
          ((64 :: w).length : Int) ≤ ((64 :: w).length : Int) := by
        simp
      rw [if_pos h1]
      simp
    simp [mentionTask, index, hs, TrimSpace_word w hw]
  · have hne : sp ≠ 64 := by
      simp [isSpace] at hsp
      omega
    have hs : sliceFrom (sp :: 64 :: w) 2 = .ok w := by
      unfold sliceFrom slice
      have h1 : (0 : Int) ≤ 2 ∧ (2 : Int) ≤ ((sp :: 64 :: w).length : Int) ∧
          ((sp :: 64 :: w).length : Int) ≤ ((sp :: 64 :: w).length : Int) := by
        simp
        omega
      rw [if_pos h1]
      have h2 : (((sp :: 64 :: w).length : Nat) : Int).toNat - (2 : Int).toNat = w.length := by
        simp
        omega
      rw [h2]
      simp
    simp [mentionTask, index, hne, hs, TrimSpace_word w hw]

/-- C2. For a string `v` the mention pattern returns as a match, or of one of
its two shapes, the value `processMentions` sends for `v` is the run `w` of
word characters after the `@`: non-empty, without `@`, without white space. -/
theorem mention_value_is_word_run (v : GoString)
    (h : (∃ msg, v ∈ FindAllString mentionRe msg) ∨
      (∃ w, w ≠ [] ∧ (∀ b ∈ w, isWord b = true) ∧
        (v = 64 :: w ∨ ∃ sp, isSpace sp = true ∧ v = sp :: 64 :: w))) :
    ∃ w, (v = 64 :: w ∨ ∃ sp, isSpace sp = true ∧ v = sp :: 64 :: w) ∧
      (∀ b ∈ w, isWord b = true) ∧
      mentionTask v = .ok (some ⟨MentionType, .str w⟩) ∧
      w ≠ [] ∧ 64 ∉ w ∧ (∀ b ∈ w, ∀ e ∈ spaceRunes, b ∉ e) := by
  have key : ∃ w, w ≠ [] ∧ (∀ b ∈ w, isWord b = true) ∧
      (v = 64 :: w ∨ ∃ sp, isSpace sp = true ∧ v = sp :: 64 :: w) := by
    rcases h with ⟨msg, hm⟩ | h
    · exact mention_shape msg v hm
    · exact h
  obtain ⟨w, hne, hw, hv⟩ := key
  refine ⟨w, hv, hw, mentionTask_shape v w hw hv, hne, ?_, ?_⟩
  · intro h64
    have := hw 64 h64
    simp [isWord] at this
  · intro b hb e he hbe
    have h1 := isWord_range (hw b hb)
    have h2 := spaceRunes_bytes e he b hbe
    omega

theorem mention_value_is_word_run_witness :
    ∃ w, (str " @man" = 64 :: w ∨ ∃ sp, isSpace sp = true ∧ str " @man" = sp :: 64 :: w) ∧
      (∀ b ∈ w, isWord b = true) ∧
      mentionTask (str " @man") = .ok (some ⟨MentionType, .str w⟩) ∧
      w ≠ [] ∧ 64 ∉ w ∧ (∀ b ∈ w, ∀ e ∈ spaceRunes, b ∉ e) :=
  mention_value_is_word_run (str " @man") (Or.inl ⟨str "test @man", by decide⟩)

/-! ## The matcher finds every match of the declarative reading -/

theorem Span.eq_of_pos {c d : Cursor} {w : GoString} (h : Span c d w) (hp : d.pos = c.pos) :
    d = c := by
  obtain ⟨h1, h2⟩ := h
  have hw : w = [] := List.length_eq_zero.mp (by omega)
  subst hw
  obtain ⟨cp, cr⟩ := c
  obtain ⟨dp, dr⟩ := d
  simp at h1 hp
  simp [h1, hp]

theorem Span.rest_length {c d : Cursor} {w : GoString} (h : Span c d w) :
    d.rest.length + w.length = c.rest.length := by
  obtain ⟨h1, _⟩ := h
  rw [h1, List.length_append]
  omega

theorem den_span_general {r : Regex} {c e : Cursor} (h : Den r c e) : ∃ w, Span c e w := by
  induction h with
  | cls _ => exact ⟨[_], rfl, rfl⟩
  | bot => exact ⟨[], rfl, rfl⟩
  | eot => exact ⟨[], rfl, rfl⟩
  | seq _ _ ih1 ih2 =>
    obtain ⟨u, hu⟩ := ih1
    obtain ⟨v, hv⟩ := ih2
    exact ⟨u ++ v, hu.trans hv⟩
  | altL _ ih => exact ih
  | altR _ ih => exact ih
  | starNil => exact ⟨[], by simp [Span]⟩
  | starCons _ _ ih1 ih2 =>
    obtain ⟨u, hu⟩ := ih1
    obtain ⟨v, hv⟩ := ih2
    exact ⟨u ++ v, hu.trans hv⟩
  | plus _ _ ih1 ih2 =>
    obtain ⟨u, hu⟩ := ih1
    obtain ⟨v, hv⟩ := ih2
    exact ⟨u ++ v, hu.trans hv⟩

theorem iter_self (step : Cursor → List Cursor) (fuel : Nat) (c : Cursor) :
    c ∈ iter step fuel c := by
  cases fuel <;> simp [iter]

theorem matchEnds_complete_aux {r : Regex} {c e : Cursor} (h : Den r c e) :
    e ∈ matchEnds r c ∧
      ∀ a, r = .star a → ∀ fuel, c.rest.length ≤ fuel → e ∈ iter (matchEnds a) fuel c := by
  induction h with
  | cls hp => exact ⟨by simp [matchEnds, hp], fun a ha => by cases ha⟩
  | bot => exact ⟨by simp [matchEnds], fun a ha => by cases ha⟩
  | eot => exact ⟨by simp [matchEnds], fun a ha => by cases ha⟩
  | seq _ _ ih1 ih2 =>
    refine ⟨?_, fun a ha => by cases ha⟩
    simp only [matchEnds, List.mem_flatMap]
    exact ⟨_, ih1.1, ih2.1⟩
  | altL _ ih =>
    refine ⟨?_, fun a ha => by cases ha⟩
    simp only [matchEnds, List.mem_append]
    exact Or.inl ih.1
  | altR _ ih =>
    refine ⟨?_, fun a ha => by cases ha⟩
    simp only [matchEnds, List.mem_append]
    exact Or.inr ih.1
  | starNil =>
    refine ⟨?_, ?_⟩
    · simp only [matchEnds]
      exact iter_self _ _ _
    · intro a _ fuel _
      exact iter_self _ _ _
  | @starCons a c d e h1 h2 ih1 ih2 =>
    have key : ∀ fuel, c.rest.length ≤ fuel → e ∈ iter (matchEnds a) fuel c := by
      intro fuel hf
      obtain ⟨w, hw⟩ := den_span_general h1
      by_cases hp : d.pos = c.pos
      · have hdc := hw.eq_of_pos hp
        rw [← hdc]
        apply ih2.2 a rfl fuel
        rw [hdc]
        exact hf
      · have hlen := hw.rest_length
        have hpos := hw.2
        have hwl : 0 < w.length := by omega
        cases fuel with
        | zero => omega
        | succ n =>
          simp only [iter, List.mem_append, List.mem_flatMap, List.mem_filter,
            List.mem_singleton, decide_eq_true_eq]
          left
          exact ⟨d, ⟨ih1.1, by omega⟩, ih2.2 a rfl n (by omega)⟩
    refine ⟨?_, ?_⟩
    · simp only [matchEnds]
      exact key _ (le_refl _)
    · intro a2 ha fuel hf
      cases ha
      exact key fuel hf
  | @plus a c d e h1 h2 ih1 ih2 =>
    refine ⟨?_, fun a ha => by cases ha⟩
    simp only [matchEnds, List.mem_flatMap]
    obtain ⟨w, hw⟩ := den_span_general h1
    have hlen := hw.rest_length
    exact ⟨d, ih1.1, ih2.2 a rfl _ (by omega)⟩

/-- The ends the matcher lists are exactly the ends of the declarative
reading. -/
theorem matchEnds_iff (r : Regex) (c e : Cursor) : e ∈ matchEnds r c ↔ Den r c e :=
  ⟨matchEnds_sound r c e, fun h => (matchEnds_complete_aux h).1⟩

/-! ## The aggregator -/

theorem GoMap.get_set (m : GoMap) (k k2 : String) (v : List Any) :
    (m.set k v).get k2 = if k2 = k then some v else m.get k2 := by
  induction m with
  | nil =>
    by_cases h : k2 = k
    · subst h; simp [GoMap.set, GoMap.get, List.lookup]
    · have : (k2 == k) = false := by simpa using h
      simp [GoMap.set, GoMap.get, List.lookup, this, h]
  | cons hd tl ih =>
    obtain ⟨k1, v1⟩ := hd
    unfold GoMap.get at ih ⊢
    by_cases h1 : k1 = k
    · subst h1
      by_cases h : k2 = k1
      · subst h; simp [GoMap.set, List.lookup]
      · have : (k2 == k1) = false := by simpa using h
        simp [GoMap.set, List.lookup, this, h]
    · by_cases h : k2 = k1
      · subst h
        have h3 : ¬ k2 = k := h1
        simp [GoMap.set, List.lookup, h1, h3]
      · have : (k2 == k1) = false := by simpa using h
        simp [GoMap.set, List.lookup, h1, this, ih]

theorem aggregateStep_get (res : GoMap) (r : channelData) (k : String) :
    (aggregateStep res r).get k =
      if k = r.DataType then some ((res.get k).getD [] ++ [r.Value]) else res.get k := by
  unfold aggregateStep
  cases hg : res.get r.DataType with
  | none =>
    by_cases h : k = r.DataType
    · subst h; simp [GoMap.get_set, hg]
    · simp [GoMap.get_set, h]
  | some l =>
    by_cases h : k = r.DataType
    · subst h; simp [GoMap.get_set, hg]
    · simp [GoMap.get_set, h]

theorem aggregateResult_get (items : List channelData) (res : GoMap) (k : String) :
    (aggregateResult items res).get k =
      if valuesOf items k = [] then res.get k
      else some ((res.get k).getD [] ++ valuesOf items k) := by
  induction items generalizing res with
  | nil => simp [aggregateResult, valuesOf]
  | cons r rest ih =>
    have hstep : aggregateResult (r :: rest) res = aggregateResult rest (aggregateStep res r) := rfl
    rw [hstep, ih, aggregateStep_get]
    by_cases h : r.DataType = k
    · subst h
      by_cases h2 : valuesOf rest r.DataType = []
      · simp [valuesOf] at h2 ⊢
      · simp [valuesOf] at h2 ⊢
    · have h3 : ¬ k = r.DataType := fun e => h e.symm
      simp [valuesOf, h, h3]

/-- C3. Started on the empty map, `aggregateResult` leaves a key present
exactly when some received item carries it, and the list under a present key
is the values of the items of that category, each once, in arrival order;
no key maps to an empty list. -/
theorem aggregateResult_groups_by_category (items : List channelData) (k : String) :
    (((aggregateResult items []).get k).isSome = true ↔ ∃ r ∈ items, r.DataType = k) ∧
    (∀ l, (aggregateResult items []).get k = some l →
      l = (items.filter (fun r => r.DataType = k)).map (fun r => r.Value) ∧ l ≠ []) := by
  have h := aggregateResult_get items [] k
  have hnil : GoMap.get [] k = none := rfl
  rw [hnil] at h
  by_cases hv : valuesOf items k = []
  · rw [if_pos hv] at h
    constructor
    · rw [h]
      simp
      intro r hr hk
      have : r.Value ∈ valuesOf items k := by
        simp [valuesOf]; exact ⟨r, ⟨hr, hk⟩, rfl⟩
      rw [hv] at this; simp at this
    · intro l hl; rw [h] at hl; cases hl
  · rw [if_neg hv] at h
    constructor
    · rw [h]; simp
      cases hl : valuesOf items k with
      | nil => exact absurd hl hv
      | cons a t =>
        have : a ∈ valuesOf items k := by rw [hl]; simp
        simp [valuesOf] at this
        obtain ⟨r, ⟨hr, hk⟩, _⟩ := this
        exact ⟨r, hr, hk⟩
    · intro l hl; rw [h] at hl
      simp at hl
      subst hl
      exact ⟨rfl, hv⟩

/-! ## The title lookup -/

mutual
theorem parseTitle_eq : ∀ (n : Node), parseTitle n = titleResult ((preorder n).find? isTitle)
  | .mk ty d cs => by
    by_cases h : ty = .ElementNode ∧ d = str "title"
    · have ht : isTitle (.mk ty d cs) = true := by simp [isTitle, Node.type, Node.data, h]
      simp only [parseTitle, if_pos h, preorder, List.find?_cons, ht, titleResult, Node.children]
    · have ht : isTitle (.mk ty d cs) = false := by
        simp only [isTitle, Node.type, Node.data]
        exact decide_eq_false h
      simp only [parseTitle, if_neg h, preorder, List.find?_cons, ht]
      exact parseTitleLoop_eq cs
theorem parseTitleLoop_eq : ∀ (cs : List Node),
    parseTitleLoop cs = titleResult ((preorderList cs).find? isTitle)
  | [] => by simp [parseTitleLoop, preorderList, titleResult]
  | c :: rest => by
    have h1 := parseTitle_eq c
    have h2 := parseTitleLoop_eq rest
    simp only [parseTitleLoop, preorderList, List.find?_append]
    cases hf : (preorder c).find? isTitle with
    | none =>
      rw [hf] at h1
      simp only [titleResult] at h1
      rw [h1]
      simpa using h2
    | some n =>
      rw [hf] at h1
      rw [h1]
      cases hc : n.children with
      | nil => simp [titleResult, hc]
      | cons x xs => simp [titleResult, hc]
end

/-! ## Title lookup: the claims -/

/-- C6 fails as stated. With a childless first `title` element `parseTitle`
does not return at all, and with a `title` element of two text children it
returns the first child's data, not the element's text content. -/
theorem parseTitle_not_text_content :
    ((firstTitle emptyTitleDoc).map textContent = some [] ∧
      parseTitle emptyTitleDoc = .error .nilDeref) ∧
    ((firstTitle splitTitleDoc).map textContent = some (str "Hello, world") ∧
      parseTitle splitTitleDoc = .ok (str "Hello, ", true)) := by
  decide

theorem textContent_single_text (t c : Node) (ht : isTitle t = true) (hc : t.children = [c])
    (hty : c.type = .TextNode) (hcs : c.children = []) : textContent t = c.data := by
  obtain ⟨ty, d, cs⟩ := t
  obtain ⟨cty, cd, ccs⟩ := c
  simp only [Node.children] at hc hcs
  simp only [Node.type] at hty
  subst hc
  subst hcs
  subst hty
  have hne : ty ≠ .TextNode := by
    simp only [isTitle, Node.type, Node.data, decide_eq_true_eq] at ht
    rw [ht.1]
    decide
  simp [textContent, preorder, preorderList, Node.type, Node.data, hne]

/-- C6, amended. A tree without `title` element gives `("", false)`; a tree
whose first `title` element in pre-order has a child gives the data of that
element's first child and `true`, whatever `title` elements come later; this
is the element's text content when its only child is a text node. -/
theorem parseTitle_first_title_child (n : Node) :
    (firstTitle n = none → parseTitle n = .ok ([], false)) ∧
    (∀ t c, firstTitle n = some t → t.children.head? = some c →
      parseTitle n = .ok (c.data, true)) ∧
    (∀ t c, firstTitle n = some t → t.children = [c] → c.type = .TextNode →
      c.children = [] → parseTitle n = .ok (textContent t, true)) := by
  have h2 : ∀ t c, firstTitle n = some t → t.children.head? = some c →
      parseTitle n = .ok (c.data, true) := by
    intro t c h hc
    rw [parseTitle_eq n]
    unfold firstTitle at h
    rw [h]
    cases hcs : t.children with
    | nil => rw [hcs] at hc; simp at hc
    | cons x xs =>
      rw [hcs] at hc
      simp at hc
      subst hc
      simp [titleResult, hcs]
  refine ⟨?_, h2, ?_⟩
  · intro h
    rw [parseTitle_eq n]
    unfold firstTitle at h
    rw [h]
    rfl
  · intro t c h hc hty hcs
    have ht : isTitle t = true := by
      unfold firstTitle at h
      exact List.find?_some h
    rw [textContent_single_text t c ht hc hty hcs]
    exact h2 t c h (by rw [hc]; rfl)

theorem parseTitle_first_title_child_witness :
    parseTitle titledDoc = .ok (str "CNN", true) ∧
    parseTitle titledDoc = .ok (textContent (element "title" [text "CNN"]), true) ∧
    parseTitle (element "body" [text "x"]) = .ok ([], false) :=
  ⟨(parseTitle_first_title_child titledDoc).2.1 (element "title" [text "CNN"]) (text "CNN")
      rfl rfl,
    (parseTitle_first_title_child titledDoc).2.2 (element "title" [text "CNN"]) (text "CNN")
      rfl rfl rfl rfl,
    (parseTitle_first_title_child (element "body" [text "x"])).1 rfl⟩

/-- C7 fails on the code. For the tree of a page with an empty
`<title></title>` the lookup dereferences the nil `FirstChild`, and the fetch
task panics instead of sending a `urlInfo` with an empty title. -/
theorem parseTitle_empty_title_panics :
    parseTitle emptyTitleDoc = .error .nilDeref ∧
    urlTask (serving emptyTitleDoc) (str "http://ab") = .error .nilDeref := by
  decide

/-! ## The URL extractor: the claims -/

/-- C9 fails on the code. The pattern reads `http[s]*`, so `httpss://ab` is
matched and handed to a fetch task although it starts with neither `http://`
nor `https://`. -/
theorem fetchArgs_scheme_not_http_or_https :
    fetchArgs (str "see httpss://ab now") = [str "httpss://ab"] ∧
    startsWith (str "http://") (str "httpss://ab") = false ∧
    startsWith (str "https://") (str "httpss://ab") = false := by
  decide

/-! ## The request layer: the claims -/

theorem FormValue_missing (r : Request) (key : String) (h : r.Form.lookup key = none) :
    r.FormValue key = [] := by
  simp [Request.FormValue, h]

/-- C4. A request whose `message` field is missing or empty gets status 400
with the message `Empty Body in the Request` and no data, and the run calls
nothing: neither `processMsgHelper` nor any extractor, and no fetch. -/
theorem processMsg_empty_message (w : World) (r : Request)
    (h : r.Form.lookup "message" = none ∨ r.FormValue "message" = []) :
    (processMsg w r).res = .ok ⟨400, "Empty Body in the Request", none⟩ ∧
    (processMsg w r).log = [] := by
  have hm : r.FormValue "message" = [] := by
    rcases h with h | h
    · exact FormValue_missing r _ h
    · exact h
  simp [processMsg, hm, StatusBadRequest]

theorem processMsg_empty_message_witness :
    (processMsg (serving titledDoc) ⟨"POST", []⟩).res =
      .ok ⟨400, "Empty Body in the Request", none⟩ ∧
    (processMsg (serving titledDoc) ⟨"POST", []⟩).log = [] :=
  processMsg_empty_message (serving titledDoc) ⟨"POST", []⟩ (Or.inl rfl)

/-- C5 fails on the code. A message with one URL whose fetch and parse both
succeed, on a page with an empty `<title></title>`: the run of `processMsg`
ends in the nil dereference of `parseTitle` and returns no response. -/
theorem processMsg_panics_on_empty_title :
    (processMsg (serving emptyTitleDoc) (post "see http://ab")).res = .error .nilDeref ∧
    (processMsg (serving emptyTitleDoc) (post "see http://ab")).log =
      [.call "processMsgHelper", .call "aggregateResult", .call "processMentions",
        .call "processEmoticons", .call "processUrls", .httpGet (str "http://ab")] := by
  decide

/-- C10 fails on the code. After writing the 405 error for a GET request
`handleMsg` goes on: it calls `processMsg`, the extractors run, and the
response of `processMsg` is written after the error. -/
theorem handleMsg_processes_non_post :
    (handleMsg offline (fun _ => false) false (get "hi @bob")).log =
      [.call "processMsg", .call "processMsgHelper", .call "aggregateResult",
        .call "processMentions", .call "processEmoticons", .call "processUrls"] ∧
    (handleMsg offline (fun _ => false) false (get "hi @bob")).res =
      .ok [.error "Method Not Allowed" 405, .header 200,
        .setHeader "Content-Type" "application/json; charset=UTF-8",
        .json (.data [("mentions", [.str (str "bob")])])] := by
  decide

/-! ## The scenarios of `mp_test.go` -/

theorem test_MessageNothing :
    (processMsgHelper offline (str "test")).res = .ok ([], none) := by decide

theorem test_MessageWithOneMention :
    (processMsgHelper offline (str "test @man")).res =
      .ok ([("mentions", [.str (str "man")])], none) := by decide

theorem test_MessageWithOneEmoticon :
    (processMsgHelper offline (str "this (thisisaoneemoti)")).res =
      .ok ([("emoticons", [.str (str "thisisaoneemoti")])], none) := by decide

theorem test_MessageWithOneUrl :
    (processMsgHelper (serving titledDoc) (str "test http://cnn.com")).res =
      .ok ([("urls", [.url ⟨str "http://cnn.com", str "CNN"⟩])], none) := by decide

theorem test_MessageWithMentionStart :
    (processMsgHelper offline (str "@man test")).res =
      .ok ([("mentions", [.str (str "man")])], none) := by decide

theorem test_MessageWithOneEach :
    (processMsgHelper (serving titledDoc)
        (str "test     @man (emoticonnnnnnnn) http://cnn.com")).res =
      .ok ([("mentions", [.str (str "man")]), ("emoticons", [.str (str "emoticonnnnnnnn")]),
        ("urls", [.url ⟨str "http://cnn.com", str "CNN"⟩])], none) := by decide

theorem test_MessageFunky :
    (processMsgHelper (serving titledDoc)
        (str "test @(emoticonnnnnnnn) @man (Zebrahttp://cnn.com")).res =
      .ok ([("mentions", [.str (str "man")]), ("emoticons", [.str (str "emoticonnnnnnnn")]),
        ("urls", [.url ⟨str "http://cnn.com", str "CNN"⟩])], none) := by decide

theorem test_MessageWithErrMention :
    (processMsgHelper offline (str "test kk@man")).res = .ok ([], none) := by decide

theorem test_MessageWithErrEmoticon :
    (processMsgHelper offline (str "test (thisisgolang)")).res = .ok ([], none) := by decide

theorem test_MessageWithErrUrl :
    (processMsgHelper offline
        (str "test http://abcedefghijklmnopqrstuvwxyz1234567890.com")).res =
      .ok ([], none) := by decide

/-! ## Instances of the general statements -/

theorem processEmoticons_sends_iff_fifteen_witness :
    emoticonTask (str "(thisisaoneemoti)") =
      .ok (if runeCount (inner (str "(thisisaoneemoti)")) = 15
        then some ⟨EmoticonType, .str (inner (str "(thisisaoneemoti)"))⟩ else none) :=
  (processEmoticons_sends_iff_fifteen (str "this (thisisaoneemoti)")).1
    (str "(thisisaoneemoti)") (by decide)

theorem aggregateResult_groups_by_category_witness :
    [Any.str (str "a"), Any.str (str "b")] =
        ([channelData.mk MentionType (.str (str "a")), ⟨UrlType, .str (str "u")⟩,
          ⟨MentionType, .str (str "b")⟩].filter
            (fun r => r.DataType = MentionType)).map (fun r => r.Value) ∧
      [Any.str (str "a"), Any.str (str "b")] ≠ [] :=
  (aggregateResult_groups_by_category
    [⟨MentionType, .str (str "a")⟩, ⟨UrlType, .str (str "u")⟩, ⟨MentionType, .str (str "b")⟩]
    MentionType).2 [.str (str "a"), .str (str "b")] (by decide)

/-! ## The interleaved coordinator: safety -/

theorem aggregateResult_snoc (recv : List channelData) (r : channelData) (m : GoMap) :
    aggregateResult (recv ++ [r]) m = aggregateStep (aggregateResult recv m) r := by
  simp [aggregateResult, List.foldl_append]

theorem sendsOf_erase_send {l : List Outcome} {v : channelData}
    (h : Except.ok (some v) ∈ l) :
    (sendsOf l : Multiset channelData) = v ::ₘ (sendsOf (l.erase (.ok (some v))) : Multiset _) := by
  have hp := (List.perm_cons_erase h).filterMap (fun o : Outcome =>
    match o with
    | .ok (some v) => some v
    | _ => none)
  rw [Multiset.cons_coe]
  exact Multiset.coe_eq_coe.mpr hp

theorem sendsOf_erase_skip {l : List Outcome} (h : (Except.ok none : Outcome) ∈ l) :
    (sendsOf l : Multiset channelData) = (sendsOf (l.erase (.ok none)) : Multiset _) := by
  have hp := (List.perm_cons_erase h).filterMap (fun o : Outcome =>
    match o with
    | .ok (some v) => some v
    | _ => none)
  exact Multiset.coe_eq_coe.mpr hp

theorem live_update (f : Kind → Ext) (k : Kind) (e : Ext) :
    (Function.update f k e .mention).live + (Function.update f k e .emoticon).live +
        (Function.update f k e .url).live + (f k).live =
      (f .mention).live + (f .emoticon).live + (f .url).live + e.live := by
  cases k <;> simp [Function.update] <;> omega

theorem owed_update (tasks : Kind → List Outcome) (f : Kind → Ext) (k : Kind) (e : Ext) :
    ((Function.update f k e .mention).owed (tasks .mention) +
        (Function.update f k e .emoticon).owed (tasks .emoticon) +
        (Function.update f k e .url).owed (tasks .url)) + (f k).owed (tasks k) =
      ((f .mention).owed (tasks .mention) + (f .emoticon).owed (tasks .emoticon) +
        (f .url).owed (tasks .url)) + e.owed (tasks k) := by
  cases k <;> simp [Function.update] <;> abel

theorem ext_ok_update {f : Kind → Ext} (h : ∀ k, (f k).ok) (k : Kind) (e : Ext) (he : e.ok) :
    ∀ k2, (Function.update f k e k2).ok := by
  intro k2
  by_cases hk : k2 = k
  · subst hk; simpa using he
  · simpa [Function.update, hk] using h k2

theorem Inv.init (tasks : Kind → List Outcome) : Inv tasks Config.init where
  ext_ok := by intro k; simp [Config.init, Ext.ok]
  proc := by simp [Config.init, Ext.live]
  main_ok := by simp [Config.init, Config.mainOk]
  agg_ok := by simp [Config.init, Config.aggOk]
  recv := ⟨[], rfl, by simp [Config.init, AggPc.held, Ext.owed, allSends]⟩
  todo_sub := by intro k o h; simp [Config.init] at h
  crash_ok := by intro x h; simp [Config.init] at h

/-- Once an extractor has work or holds a non-zero counter it is waiting. -/
theorem Ext.ok.waiting_of_todo {e : Ext} (h : e.ok) {o : Outcome} (ho : o ∈ e.todo) :
    e.pc = .waiting := by
  unfold Ext.ok at h
  cases hp : e.pc <;> rw [hp] at h <;> simp at h ⊢
  · rw [h.1] at ho; simp at ho
  · rw [h.1] at ho; simp at ho

theorem Ext.ok.waiting_of_sending {e : Ext} (h : e.ok) {v : channelData}
    (hv : v ∈ e.sending) : e.pc = .waiting := by
  unfold Ext.ok at h
  cases hp : e.pc <;> rw [hp] at h <;> simp at h ⊢
  · rw [h.2.1] at hv; simp at hv
  · rw [h.2.1] at hv; simp at hv

theorem Ext.ok.waiting_of_sent {e : Ext} (h : e.ok) (hs : e.sent ≠ 0) : e.pc = .waiting := by
  unfold Ext.ok at h
  cases hp : e.pc <;> rw [hp] at h <;> simp at h ⊢
  · exact hs h.2.2.1
  · exact hs h.2.2.1

/-- With `wgProc` at zero every extractor has returned and owes nothing. -/
theorem Inv.all_done {tasks : Kind → List Outcome} {c : Config} (h : Inv tasks c)
    (hz : c.wgProc = 0) (k : Kind) :
    (c.ext k).pc = .done ∧ (c.ext k).todo = [] ∧ (c.ext k).sending = [] ∧
      (c.ext k).sent = 0 ∧ (c.ext k).wgLocal = 0 := by
  have hp := h.proc
  rw [hz] at hp
  have hl : (c.ext k).live = 0 := by cases k <;> omega
  have hpc : (c.ext k).pc = .done := by
    unfold Ext.live at hl
    cases hq : (c.ext k).pc <;> rw [hq] at hl <;> simp at hl ⊢
  have hok := h.ext_ok k
  unfold Ext.ok at hok
  rw [hpc] at hok
  exact ⟨hpc, hok⟩

theorem Inv.done_of_closed {tasks : Kind → List Outcome} {c : Config} (h : Inv tasks c)
    (hc : c.closed = true) (k : Kind) :
    (c.ext k).pc = .done ∧ (c.ext k).todo = [] ∧ (c.ext k).sending = [] ∧
      (c.ext k).sent = 0 ∧ (c.ext k).wgLocal = 0 := by
  have hm := h.main_ok
  unfold Config.mainOk at hm
  cases hq : c.main <;> rw [hq] at hm
  · rw [hc] at hm; simp at hm
  · rw [hc] at hm; simp at hm
  · exact h.all_done hm.2 k
  · exact h.all_done hm.2.1 k

theorem step_crash_none {tasks : Kind → List Outcome} {c c1 : Config} {a : Action}
    (h : step tasks c a = some c1) : c.crash = none := by
  unfold step at h
  cases hc : c.crash with
  | none => rfl
  | some x => simp [hc] at h

theorem Inv.crashWith {tasks : Kind → List Outcome} {c : Config} (h : Inv tasks c)
    (p : Panic) (k : Kind) (hp : .error p ∈ tasks k) : Inv tasks (c.crashWith (.panic p)) where
  ext_ok := h.ext_ok
  proc := h.proc
  main_ok := h.main_ok
  agg_ok := h.agg_ok
  recv := h.recv
  todo_sub := h.todo_sub
  crash_ok := by
    intro x hx
    simp [Config.crashWith] at hx
    exact ⟨p, k, hx.symm, hp⟩

theorem todo_sub_update {tasks : Kind → List Outcome} {f : Kind → Ext}
    (h : ∀ k, ∀ o ∈ (f k).todo, o ∈ tasks k) (k : Kind) (e : Ext)
    (he : ∀ o ∈ e.todo, o ∈ tasks k) :
    ∀ k2, ∀ o ∈ (Function.update f k e k2).todo, o ∈ tasks k2 := by
  intro k2
  by_cases hk : k2 = k
  · subst hk; simpa using he
  · simpa [Function.update, hk] using h k2

/-- A step of one extractor that changes neither what it owes nor whether it
is live keeps the invariant. -/
theorem Inv.setExt {tasks : Kind → List Outcome} {c : Config} (h : Inv tasks c)
    (k : Kind) (e : Ext) (hok : e.ok) (hsub : ∀ o ∈ e.todo, o ∈ tasks k)
    (hlive : e.live = (c.ext k).live)
    (howed : e.owed (tasks k) = (c.ext k).owed (tasks k)) : Inv tasks (c.setExt k e) := by
  have h1 := live_update c.ext k e
  have h2 := owed_update tasks c.ext k e
  rw [hlive] at h1
  rw [howed] at h2
  refine ⟨ext_ok_update h.ext_ok k e hok, ?_, h.main_ok, h.agg_ok, ?_,
    todo_sub_update h.todo_sub k e hsub, h.crash_ok⟩
  · have := h.proc
    simp only [Config.setExt]
    omega
  · obtain ⟨recv, r1, r2⟩ := h.recv
    refine ⟨recv, r1, ?_⟩
    simp only [Config.setExt]
    rw [add_right_cancel h2]
    exact r2

theorem step_extStart {tasks : Kind → List Outcome} {c c1 : Config} (h : Inv tasks c)
    (k : Kind) (hs : step tasks c (.extStart k) = some c1) : Inv tasks c1 := by
  have hcr := step_crash_none hs
  simp only [step, hcr, Option.isSome_none, Bool.false_eq_true, if_false] at hs
  cases hp : (c.ext k).pc <;> rw [hp] at hs <;> simp at hs
  subst hs
  have hok := h.ext_ok k
  unfold Ext.ok at hok
  rw [hp] at hok
  apply h.setExt
  · simp [Ext.ok, hok.2.1, hok.2.2.1]
  · intro o ho; exact ho
  · simp [Ext.live, hp]
  · simp [Ext.owed, hp, hok.2.1]

theorem step_taskRun {tasks : Kind → List Outcome} {c c1 : Config} (h : Inv tasks c)
    (k : Kind) (o : Outcome) (hs : step tasks c (.taskRun k o) = some c1) : Inv tasks c1 := by
  have hcr := step_crash_none hs
  simp only [step, hcr, Option.isSome_none, Bool.false_eq_true, if_false] at hs
  by_cases hmem : o ∈ (c.ext k).todo
  · rw [if_pos hmem] at hs
    have hok := h.ext_ok k
    have hp := hok.waiting_of_todo hmem
    unfold Ext.ok at hok
    rw [hp] at hok
    simp only at hok
    have hlen : ((c.ext k).todo.erase o).length + 1 = (c.ext k).todo.length := by
      rw [List.length_erase_of_mem hmem]
      have : 0 < (c.ext k).todo.length := List.length_pos_of_mem hmem
      omega
    match o, hmem, hs, hlen with
    | .error p, hmem, hs, _ =>
      simp at hs
      subst hs
      exact h.crashWith p k (h.todo_sub k _ hmem)
    | .ok none, hmem, hs, hlen =>
      cases hw : (c.ext k).wgLocal with
      | zero => omega
      | succ n =>
        rw [hw] at hs
        simp at hs
        subst hs
        apply h.setExt
        · simp only [Ext.ok, hp]
          omega
        · intro o ho; exact h.todo_sub k o (List.mem_of_mem_erase ho)
        · simp [Ext.live, hp]
        · simp only [Ext.owed, hp, ← sendsOf_erase_skip hmem]
    | .ok (some v), hmem, hs, hlen =>
      simp at hs
      subst hs
      apply h.setExt
      · simp only [Ext.ok, hp, List.length_cons]
        omega
      · intro o ho; exact h.todo_sub k o (List.mem_of_mem_erase ho)
      · simp [Ext.live, hp]
      · simp only [Ext.owed, hp]
        rw [sendsOf_erase_send hmem, ← Multiset.cons_coe, Multiset.add_cons, Multiset.cons_add]
  · rw [if_neg hmem] at hs
    simp at hs

theorem step_taskDone {tasks : Kind → List Outcome} {c c1 : Config} (h : Inv tasks c)
    (k : Kind) (hs : step tasks c (.taskDone k) = some c1) : Inv tasks c1 := by
  have hcr := step_crash_none hs
  simp only [step, hcr, Option.isSome_none, Bool.false_eq_true, if_false] at hs
  cases hsent : (c.ext k).sent with
  | zero => rw [hsent] at hs; simp at hs
  | succ s =>
    rw [hsent] at hs
    have hok := h.ext_ok k
    have hp := hok.waiting_of_sent (by omega)
    unfold Ext.ok at hok
    rw [hp] at hok
    simp only at hok
    cases hw : (c.ext k).wgLocal with
    | zero => omega
    | succ n =>
      rw [hw] at hs
      simp at hs
      subst hs
      apply h.setExt
      · simp only [Ext.ok, hp]
        omega
      · exact h.todo_sub k
      · simp [Ext.live, hp]
      · simp only [Ext.owed, hp]

/-- A send hands one owed value to the aggregator. -/
theorem Inv.send {tasks : Kind → List Outcome} {c : Config} (h : Inv tasks c)
    (k : Kind) (v : channelData) (e : Ext) (hagg : c.agg = .ranging) (hok : e.ok)
    (hsub : ∀ o ∈ e.todo, o ∈ tasks k) (hlive : e.live = (c.ext k).live)
    (howed : (c.ext k).owed (tasks k) = v ::ₘ e.owed (tasks k)) :
    Inv tasks { c.setExt k e with agg := .holding v } := by
  have h1 := live_update c.ext k e
  have h2 := owed_update tasks c.ext k e
  rw [hlive] at h1
  rw [howed] at h2
  refine ⟨ext_ok_update h.ext_ok k e hok, ?_, ?_, ?_, ?_,
    todo_sub_update h.todo_sub k e hsub, h.crash_ok⟩
  · have := h.proc
    simp only [Config.setExt]
    omega
  · have := h.main_ok
    simpa [Config.mainOk, Config.setExt] using this
  · have := h.agg_ok
    simp only [Config.aggOk, hagg] at this
    simp [Config.aggOk, Config.setExt, this]
  · obtain ⟨recv, r1, r2⟩ := h.recv
    refine ⟨recv, r1, ?_⟩
    simp only [Config.setExt, AggPc.held]
    rw [← r2, hagg]
    simp only [AggPc.held, add_zero]
    rw [Multiset.add_cons, ← Multiset.cons_add] at h2
    have h3 := add_right_cancel h2
    rw [← h3]
    rw [add_assoc, Multiset.singleton_add]

theorem step_send {tasks : Kind → List Outcome} {c c1 : Config} (h : Inv tasks c)
    (k : Kind) (v : channelData) (hs : step tasks c (.send k v) = some c1) :
    Inv tasks c1 := by
  have hcr := step_crash_none hs
  simp only [step, hcr, Option.isSome_none, Bool.false_eq_true, if_false] at hs
  by_cases hmem : v ∈ (c.ext k).sending
  · rw [if_pos hmem] at hs
    have hok := h.ext_ok k
    have hp := hok.waiting_of_sending hmem
    cases hcl : c.closed with
    | true =>
      have := (h.done_of_closed hcl k).1
      rw [hp] at this
      cases this
    | false =>
      rw [hcl] at hs
      simp only [Bool.false_eq_true, if_false] at hs
      cases hagg : c.agg <;> rw [hagg] at hs <;> simp at hs
      subst hs
      unfold Ext.ok at hok
      rw [hp] at hok
      simp only at hok
      have hlen : ((c.ext k).sending.erase v).length + 1 = (c.ext k).sending.length := by
        rw [List.length_erase_of_mem hmem]
        have : 0 < (c.ext k).sending.length := List.length_pos_of_mem hmem
        omega
      apply h.send k v _ hagg
      · simp only [Ext.ok, hp]
        omega
      · exact h.todo_sub k
      · simp [Ext.live, hp]
      · simp only [Ext.owed, hp]
        rw [← Multiset.add_cons, Multiset.cons_coe]
        congr 1
        exact Multiset.coe_eq_coe.mpr (List.perm_cons_erase hmem)
  · rw [if_neg hmem] at hs
    simp at hs

/-- An extractor that owes nothing returns and takes one off `wgProc`. -/
theorem Inv.extDone {tasks : Kind → List Outcome} {c : Config} (h : Inv tasks c)
    (k : Kind) (e : Ext) (n : Nat) (hn : c.wgProc = n + 1) (hok : e.ok)
    (hsub : ∀ o ∈ e.todo, o ∈ tasks k) (hl0 : e.live = 0)
    (hl1 : (c.ext k).live = 1) (howed : e.owed (tasks k) = (c.ext k).owed (tasks k)) :
    Inv tasks { c.setExt k e with wgProc := n } := by
  have h1 := live_update c.ext k e
  have h2 := owed_update tasks c.ext k e
  rw [hl0, hl1] at h1
  rw [howed] at h2
  have hproc := h.proc
  refine ⟨ext_ok_update h.ext_ok k e hok, ?_, ?_, ?_, ?_,
    todo_sub_update h.todo_sub k e hsub, h.crash_ok⟩
  · simp only [Config.setExt]
    omega
  · have := h.main_ok
    unfold Config.mainOk at this ⊢
    cases hm : c.main <;> rw [hm] at this <;> simp [Config.setExt, hm] <;> simp at this
    · exact this
    · omega
    · omega
    · omega
  · have := h.agg_ok
    simpa [Config.aggOk, Config.setExt] using this
  · obtain ⟨recv, r1, r2⟩ := h.recv
    refine ⟨recv, r1, ?_⟩
    simp only [Config.setExt]
    rw [add_right_cancel h2]
    exact r2

theorem step_extDone {tasks : Kind → List Outcome} {c c1 : Config} (h : Inv tasks c)
    (k : Kind) (hs : step tasks c (.extDone k) = some c1) : Inv tasks c1 := by
  have hcr := step_crash_none hs
  simp only [step, hcr, Option.isSome_none, Bool.false_eq_true, if_false] at hs
  cases hp : (c.ext k).pc <;> rw [hp] at hs <;> simp at hs
  obtain ⟨hw, hs⟩ := hs
  have hok := h.ext_ok k
  unfold Ext.ok at hok
  rw [hp] at hok
  simp only at hok
  have hlive : (c.ext k).live = 1 := by simp [Ext.live, hp]
  have ht : (c.ext k).todo = [] := List.length_eq_zero.mp (by omega)
  have hsd : (c.ext k).sending = [] := List.length_eq_zero.mp (by omega)
  have hproc := h.proc
  cases hwp : c.wgProc with
  | zero =>
    have : (c.ext k).live = 0 := by cases k <;> omega
    omega
  | succ n =>
    rw [hwp] at hs
    simp at hs
    subst hs
    apply h.extDone k _ n hwp
    · simp only [Ext.ok]
      exact ⟨ht, hsd, by omega, hw⟩
    · exact h.todo_sub k
    · rfl
    · exact hlive
    · simp [Ext.owed, hp]

theorem step_aggStore {tasks : Kind → List Outcome} {c c1 : Config} (h : Inv tasks c)
    (hs : step tasks c .aggStore = some c1) : Inv tasks c1 := by
  have hcr := step_crash_none hs
  simp only [step, hcr, Option.isSome_none, Bool.false_eq_true, if_false] at hs
  cases hagg : c.agg <;> rw [hagg] at hs <;> simp at hs
  rename_i r
  subst hs
  refine ⟨h.ext_ok, h.proc, ?_, ?_, ?_, h.todo_sub, fun x hx => by simp at hx⟩
  · have := h.main_ok
    simpa [Config.mainOk] using this
  · have := h.agg_ok
    simp only [Config.aggOk, hagg] at this
    simp [Config.aggOk, this]
  · obtain ⟨recv, r1, r2⟩ := h.recv
    refine ⟨recv ++ [r], ?_, ?_⟩
    · simp only
      rw [aggregateResult_snoc, r1]
    · simp only [AggPc.held, add_zero]
      rw [← r2, hagg]
      simp only [AggPc.held]
      rw [← Multiset.coe_add, Multiset.coe_singleton]

theorem step_aggExit {tasks : Kind → List Outcome} {c c1 : Config} (h : Inv tasks c)
    (hs : step tasks c .aggExit = some c1) : Inv tasks c1 := by
  have hcr := step_crash_none hs
  simp only [step, hcr, Option.isSome_none, Bool.false_eq_true, if_false] at hs
  cases hagg : c.agg <;> rw [hagg] at hs <;> simp at hs
  obtain ⟨hcl, hs⟩ := hs
  have hag := h.agg_ok
  simp only [Config.aggOk, hagg] at hag
  rw [hag] at hs
  simp at hs
  subst hs
  refine ⟨h.ext_ok, h.proc, ?_, ?_, ?_, h.todo_sub, fun x hx => by simp at hx⟩
  · have := h.main_ok
    unfold Config.mainOk at this ⊢
    cases hm : c.main <;> rw [hm] at this <;> simp [hm] <;> simp at this
    · rw [hcl] at this; cases this
    · rw [hcl] at this; simp at this
    · exact this
    · omega
  · simp [Config.aggOk, hcl]
  · obtain ⟨recv, r1, r2⟩ := h.recv
    refine ⟨recv, r1, ?_⟩
    rw [← r2, hagg]
    simp [AggPc.held]

theorem step_mainWait {tasks : Kind → List Outcome} {c c1 : Config} (h : Inv tasks c)
    (hs : step tasks c .mainWait = some c1) : Inv tasks c1 := by
  have hcr := step_crash_none hs
  simp only [step, hcr, Option.isSome_none, Bool.false_eq_true, if_false] at hs
  cases hm : c.main <;> rw [hm] at hs <;> simp at hs
  obtain ⟨hw, hs⟩ := hs
  subst hs
  have hmo := h.main_ok
  simp only [Config.mainOk, hm] at hmo
  refine ⟨h.ext_ok, h.proc, ?_, ?_, h.recv, h.todo_sub, fun x hx => by simp at hx⟩
  · simp [Config.mainOk, hmo, hw]
  · have := h.agg_ok
    simpa [Config.aggOk] using this

theorem step_mainClose {tasks : Kind → List Outcome} {c c1 : Config} (h : Inv tasks c)
    (hs : step tasks c .mainClose = some c1) : Inv tasks c1 := by
  have hcr := step_crash_none hs
  simp only [step, hcr, Option.isSome_none, Bool.false_eq_true, if_false] at hs
  cases hm : c.main <;> rw [hm] at hs <;> simp at hs
  subst hs
  have hmo := h.main_ok
  simp only [Config.mainOk, hm] at hmo
  refine ⟨h.ext_ok, h.proc, ?_, ?_, h.recv, h.todo_sub, fun x hx => by simp at hx⟩
  · simp [Config.mainOk, hmo]
  · have := h.agg_ok
    unfold Config.aggOk at this ⊢
    cases ha : c.agg <;> rw [ha] at this <;> simp [ha] <;> simp at this
    · exact this
    · exact this
    · exact this.1

theorem step_mainJoin {tasks : Kind → List Outcome} {c c1 : Config} (h : Inv tasks c)
    (hs : step tasks c .mainJoin = some c1) : Inv tasks c1 := by
  have hcr := step_crash_none hs
  simp only [step, hcr, Option.isSome_none, Bool.false_eq_true, if_false] at hs
  cases hm : c.main <;> rw [hm] at hs <;> simp at hs
  obtain ⟨hw, hs⟩ := hs
  subst hs
  have hmo := h.main_ok
  simp only [Config.mainOk, hm] at hmo
  refine ⟨h.ext_ok, h.proc, ?_, ?_, h.recv, h.todo_sub, fun x hx => by simp at hx⟩
  · simp [Config.mainOk, hmo, hw]
  · have := h.agg_ok
    simpa [Config.aggOk] using this

/-- Every step keeps the invariant. -/
theorem step_inv {tasks : Kind → List Outcome} {c c1 : Config} (h : Inv tasks c)
    (a : Action) (hs : step tasks c a = some c1) : Inv tasks c1 := by
  cases a with
  | extStart k => exact step_extStart h k hs
  | taskRun k o => exact step_taskRun h k o hs
  | send k v => exact step_send h k v hs
  | taskDone k => exact step_taskDone h k hs
  | extDone k => exact step_extDone h k hs
  | aggStore => exact step_aggStore h hs
  | aggExit => exact step_aggExit h hs
  | mainWait => exact step_mainWait h hs
  | mainClose => exact step_mainClose h hs
  | mainJoin => exact step_mainJoin h hs

/-- Every configuration a run reaches satisfies the invariant. -/
theorem exec_inv {tasks : Kind → List Outcome} :
    ∀ (as : List Action) (c c1 : Config), Inv tasks c → exec tasks c as = some c1 →
      Inv tasks c1 := by
  intro as
  induction as with
  | nil =>
    intro c c1 h he
    simp [exec] at he
    subst he
    exact h
  | cons a rest ih =>
    intro c c1 h he
    simp only [exec] at he
    cases hs : step tasks c a with
    | none => rw [hs] at he; simp at he
    | some c2 =>
      rw [hs] at he
      exact ih c2 c1 (step_inv h a hs) he

/-! ## The interleaved coordinator: no deadlock, termination -/

theorem Inv.ext_progress {tasks : Kind → List Outcome} {c : Config} (h : Inv tasks c)
    (hcr : c.crash = none) (k : Kind) (hk : (c.ext k).pc ≠ .done) :
    ∃ a, (step tasks c a).isSome = true := by
  have hok := h.ext_ok k
  cases hp : (c.ext k).pc with
  | done => exact absurd hp hk
  | start => exact ⟨.extStart k, by simp [step, hcr, hp]⟩
  | waiting =>
    unfold Ext.ok at hok
    rw [hp] at hok
    simp only at hok
    cases ht : (c.ext k).todo with
    | cons o t =>
      refine ⟨.taskRun k o, ?_⟩
      have hmem : o ∈ (c.ext k).todo := by rw [ht]; simp
      simp only [step, hcr, Option.isSome_none, Bool.false_eq_true, if_false, if_pos hmem]
      match o with
      | .error p => simp
      | .ok none => cases (c.ext k).wgLocal <;> simp
      | .ok (some v) => simp
    | nil =>
      cases hsd : (c.ext k).sending with
      | cons v t =>
        have hmem : v ∈ (c.ext k).sending := by rw [hsd]; simp
        cases hcl : c.closed with
        | true => exact ⟨.send k v, by simp [step, hcr, hmem, hcl]⟩
        | false =>
          cases hagg : c.agg with
          | ranging => exact ⟨.send k v, by simp [step, hcr, hmem, hcl, hagg]⟩
          | holding r => exact ⟨.aggStore, by simp [step, hcr, hagg]⟩
          | done =>
            have := h.agg_ok
            simp only [Config.aggOk, hagg] at this
            rw [hcl] at this
            simp at this
      | nil =>
        cases hsent : (c.ext k).sent with
        | succ s =>
          refine ⟨.taskDone k, ?_⟩
          simp only [step, hcr, Option.isSome_none, Bool.false_eq_true, if_false, hsent]
          cases (c.ext k).wgLocal <;> simp
        | zero =>
          refine ⟨.extDone k, ?_⟩
          have hw : (c.ext k).wgLocal = 0 := by
            rw [hok, ht, hsd, hsent]
            rfl
          simp only [step, hcr, Option.isSome_none, Bool.false_eq_true, if_false, hp, hw]
          cases c.wgProc <;> simp

/-- A configuration that is neither returned nor aborted can take a step. -/
theorem Inv.progress {tasks : Kind → List Outcome} {c : Config} (h : Inv tasks c)
    (hf : ¬ c.final) : ∃ a, (step tasks c a).isSome = true := by
  unfold Config.final at hf
  have hcr : c.crash = none := by
    by_contra hne
    exact hf (Or.inr hne)
  have hm : c.main ≠ .returned := fun e => hf (Or.inl e)
  by_cases h1 : (c.ext .mention).pc = .done
  · by_cases h2 : (c.ext .emoticon).pc = .done
    · by_cases h3 : (c.ext .url).pc = .done
      · have hproc := h.proc
        simp only [Ext.live, h1, h2, h3] at hproc
        have hmo := h.main_ok
        have hao := h.agg_ok
        cases hmain : c.main with
        | returned => exact absurd hmain hm
        | waitProc => exact ⟨.mainWait, by simp [step, hcr, hmain, hproc]⟩
        | closing => exact ⟨.mainClose, by simp [step, hcr, hmain]⟩
        | waitAgg =>
          simp only [Config.mainOk, hmain] at hmo
          cases hagg : c.agg with
          | holding r => exact ⟨.aggStore, by simp [step, hcr, hagg]⟩
          | ranging =>
            refine ⟨.aggExit, ?_⟩
            simp only [step, hcr, Option.isSome_none, Bool.false_eq_true, if_false, hagg,
              hmo.1, if_true]
            cases c.wgAgg <;> simp
          | done =>
            simp only [Config.aggOk, hagg] at hao
            exact ⟨.mainJoin, by simp [step, hcr, hmain, hao.1]⟩
      · exact h.ext_progress hcr .url h3
    · exact h.ext_progress hcr .emoticon h2
  · exact h.ext_progress hcr .mention h1

theorem weight_update (tasks : Kind → List Outcome) (f : Kind → Ext) (k : Kind) (e : Ext) :
    ((Function.update f k e .mention).weight (tasks .mention) +
        (Function.update f k e .emoticon).weight (tasks .emoticon) +
        (Function.update f k e .url).weight (tasks .url)) + (f k).weight (tasks k) =
      ((f .mention).weight (tasks .mention) + (f .emoticon).weight (tasks .emoticon) +
        (f .url).weight (tasks .url)) + e.weight (tasks k) := by
  cases k <;> simp [Function.update] <;> omega

theorem weight_crashWith (tasks : Kind → List Outcome) (c : Config) (x : Crash)
    (hcr : c.crash = none) : (c.crashWith x).weight tasks < c.weight tasks := by
  simp [Config.weight, Config.crashWith, hcr]

theorem weight_setExt (tasks : Kind → List Outcome) (c : Config) (k : Kind) (e : Ext)
    (hcr : c.crash = none) (hw : e.weight (tasks k) < (c.ext k).weight (tasks k)) :
    (c.setExt k e).weight tasks < c.weight tasks := by
  have := weight_update tasks c.ext k e
  simp only [Config.weight, Config.setExt, hcr, Option.isSome_none, Bool.false_eq_true, if_false]
  omega

theorem length_erase_succ {α : Type} [DecidableEq α] {l : List α} {a : α} (h : a ∈ l) :
    (l.erase a).length + 1 = l.length := by
  rw [List.length_erase_of_mem h]
  have : 0 < l.length := List.length_pos_of_mem h
  omega

/-- Every step lowers the weight. -/
theorem step_weight {tasks : Kind → List Outcome} {c c1 : Config} (a : Action)
    (hs : step tasks c a = some c1) : c1.weight tasks < c.weight tasks := by
  have hcr := step_crash_none hs
  simp only [step, hcr, Option.isSome_none, Bool.false_eq_true, if_false] at hs
  cases a with
  | extStart k =>
    simp only at hs
    cases hp : (c.ext k).pc <;> rw [hp] at hs <;> simp at hs
    subst hs
    apply weight_setExt tasks c k _ hcr
    simp only [Ext.weight, hp]
    omega
  | taskRun k o =>
    simp only at hs
    by_cases hmem : o ∈ (c.ext k).todo
    · rw [if_pos hmem] at hs
      have hlen := length_erase_succ hmem
      match o, hmem, hs, hlen with
      | .error p, _, hs, _ =>
        simp at hs
        subst hs
        exact weight_crashWith tasks c _ hcr
      | .ok none, hmem, hs, hlen =>
        cases hw : (c.ext k).wgLocal with
        | zero =>
          rw [hw] at hs
          simp at hs
          subst hs
          exact weight_crashWith tasks c _ hcr
        | succ n =>
          rw [hw] at hs
          simp at hs
          subst hs
          apply weight_setExt tasks c k _ hcr
          simp only [Ext.weight]
          omega
      | .ok (some v), hmem, hs, hlen =>
        simp at hs
        subst hs
        apply weight_setExt tasks c k _ hcr
        simp only [Ext.weight, List.length_cons]
        omega
    · rw [if_neg hmem] at hs
      simp at hs
  | send k v =>
    simp only at hs
    by_cases hmem : v ∈ (c.ext k).sending
    · rw [if_pos hmem] at hs
      have hlen := length_erase_succ hmem
      cases hcl : c.closed with
      | true =>
        rw [hcl] at hs
        simp at hs
        subst hs
        exact weight_crashWith tasks c _ hcr
      | false =>
        rw [hcl] at hs
        simp only [Bool.false_eq_true, if_false] at hs
        cases hagg : c.agg <;> rw [hagg] at hs <;> simp at hs
        subst hs
        have := weight_update tasks c.ext k
          { c.ext k with sending := (c.ext k).sending.erase v, sent := (c.ext k).sent + 1 }
        simp only [Ext.weight] at this
        simp only [Config.weight, Config.setExt, hcr, hagg, Option.isSome_none,
          Bool.false_eq_true, if_false, AggPc.weight, Ext.weight]
        omega
    · rw [if_neg hmem] at hs
      simp at hs
  | taskDone k =>
    simp only at hs
    cases hsent : (c.ext k).sent with
    | zero => rw [hsent] at hs; simp at hs
    | succ s =>
      rw [hsent] at hs
      cases hw : (c.ext k).wgLocal with
      | zero =>
        rw [hw] at hs
        simp at hs
        subst hs
        exact weight_crashWith tasks c _ hcr
      | succ n =>
        rw [hw] at hs
        simp at hs
        subst hs
        apply weight_setExt tasks c k _ hcr
        simp only [Ext.weight]
        omega
  | extDone k =>
    simp only at hs
    cases hp : (c.ext k).pc <;> rw [hp] at hs <;> simp at hs
    obtain ⟨hw, hs⟩ := hs
    cases hwp : c.wgProc with
    | zero =>
      rw [hwp] at hs
      simp at hs
      subst hs
      exact weight_crashWith tasks c _ hcr
    | succ n =>
      rw [hwp] at hs
      simp at hs
      subst hs
      have := weight_update tasks c.ext k { c.ext k with pc := .done }
      simp only [Ext.weight, hp] at this
      simp only [Config.weight, Config.setExt, hcr, Option.isSome_none,
        Bool.false_eq_true, if_false, Ext.weight]
      omega
  | aggStore =>
    simp only at hs
    cases hagg : c.agg <;> rw [hagg] at hs <;> simp at hs
    subst hs
    simp [Config.weight, hcr, hagg, AggPc.weight]
  | aggExit =>
    simp only at hs
    cases hagg : c.agg <;> rw [hagg] at hs <;> simp at hs
    obtain ⟨hcl, hs⟩ := hs
    cases hw : c.wgAgg with
    | zero =>
      rw [hw] at hs
      simp at hs
      subst hs
      exact weight_crashWith tasks c _ hcr
    | succ n =>
      rw [hw] at hs
      simp at hs
      subst hs
      simp [Config.weight, hcr, hagg, AggPc.weight]
  | mainWait =>
    simp only at hs
    cases hm : c.main <;> rw [hm] at hs <;> simp at hs
    obtain ⟨hw, hs⟩ := hs
    subst hs
    simp [Config.weight, hcr, hm, MainPc.weight]
  | mainClose =>
    simp only at hs
    cases hm : c.main <;> rw [hm] at hs <;> simp at hs
    subst hs
    simp [Config.weight, hcr, hm, MainPc.weight]
  | mainJoin =>
    simp only at hs
    cases hm : c.main <;> rw [hm] at hs <;> simp at hs
    obtain ⟨hw, hs⟩ := hs
    subst hs
    simp [Config.weight, hcr, hm, MainPc.weight]

/-- A run is no longer than the weight it starts from. -/
theorem exec_weight {tasks : Kind → List Outcome} :
    ∀ (as : List Action) (c c1 : Config), exec tasks c as = some c1 →
      c1.weight tasks + as.length ≤ c.weight tasks := by
  intro as
  induction as with
  | nil =>
    intro c c1 he
    simp [exec] at he
    subst he
    simp
  | cons a rest ih =>
    intro c c1 he
    simp only [exec] at he
    cases hs : step tasks c a with
    | none => rw [hs] at he; simp at he
    | some c2 =>
      rw [hs] at he
      have h1 := ih c2 c1 he
      have h2 := step_weight a hs
      simp only [List.length_cons]
      omega

/-- From every configuration of the invariant some run leads to a final one. -/
theorem Inv.reaches_final {tasks : Kind → List Outcome} :
    ∀ (n : Nat) (c : Config), Inv tasks c → c.weight tasks ≤ n →
      ∃ as c1, exec tasks c as = some c1 ∧ c1.final := by
  intro n
  induction n with
  | zero =>
    intro c h hw
    by_cases hf : c.final
    · exact ⟨[], c, rfl, hf⟩
    · obtain ⟨a, ha⟩ := h.progress hf
      cases hs : step tasks c a with
      | none => rw [hs] at ha; simp at ha
      | some c2 =>
        have := step_weight a hs
        omega
  | succ m ih =>
    intro c h hw
    by_cases hf : c.final
    · exact ⟨[], c, rfl, hf⟩
    · obtain ⟨a, ha⟩ := h.progress hf
      cases hs : step tasks c a with
      | none => rw [hs] at ha; simp at ha
      | some c2 =>
        have hlt := step_weight a hs
        obtain ⟨as, c1, he, hfin⟩ := ih c2 (step_inv h a hs) (by omega)
        refine ⟨a :: as, c1, ?_, hfin⟩
        simp only [exec, hs]
        exact he

/-- When no per-match goroutine panics, no run aborts. -/
theorem Inv.no_crash {tasks : Kind → List Outcome} {c : Config} (h : Inv tasks c)
    (hp : ∀ k p, Except.error p ∉ tasks k) : c.crash = none := by
  cases hc : c.crash with
  | none => rfl
  | some x =>
    obtain ⟨p, k, _, hmem⟩ := h.crash_ok x hc
    exact absurd hmem (hp k p)

/-- What a returned configuration holds: the aggregate of all sends, in some
order of arrival. -/
theorem Inv.returned {tasks : Kind → List Outcome} {c : Config} (h : Inv tasks c)
    (hm : c.main = .returned) :
    ∃ recv, recv.Perm (allSends tasks) ∧ c.respData = aggregateResult recv [] := by
  have hmo := h.main_ok
  simp only [Config.mainOk, hm] at hmo
  have hao := h.agg_ok
  have hagg : c.agg = .done := by
    unfold Config.aggOk at hao
    cases ha : c.agg <;> rw [ha] at hao <;> simp at hao ⊢ <;> omega
  obtain ⟨recv, r1, r2⟩ := h.recv
  have hz : ∀ k, (c.ext k).owed (tasks k) = 0 := by
    intro k
    obtain ⟨d1, d2, d3, _⟩ := h.all_done hmo.2.1 k
    simp [Ext.owed, d1, d2, d3, sendsOf]
  rw [hagg, hz, hz, hz] at r2
  simp only [AggPc.held, add_zero] at r2
  exact ⟨recv, Multiset.coe_eq_coe.mp r2, r1⟩

theorem aggregateResult_mem (recv : List channelData) (v : channelData) (hv : v ∈ recv) :
    ∃ l, (aggregateResult recv []).get v.DataType = some l ∧ v.Value ∈ l := by
  have hne : valuesOf recv v.DataType ≠ [] := by
    intro he
    have : v.Value ∈ valuesOf recv v.DataType := by
      simp only [valuesOf, List.mem_map, List.mem_filter]
      exact ⟨v, ⟨hv, by simp⟩, rfl⟩
    rw [he] at this
    simp at this
  refine ⟨valuesOf recv v.DataType, ?_, ?_⟩
  · rw [aggregateResult_get, if_neg hne]
    simp [GoMap.get]
  · simp only [valuesOf, List.mem_map, List.mem_filter]
    exact ⟨v, ⟨hv, by simp⟩, rfl⟩

/-- C8. In every configuration a run of the coordinator reaches: when the
channel is closed, the three extractors have returned and none of their
per-match goroutines is left running, blocked in its send, or short of its
`Done`; the program has not aborted on a send on a closed channel; and when
`processMsgHelper` has returned, its map is the aggregate of the values the
producers send, each received once, so each is under its category key. -/
theorem channel_closed_after_all_producers (tasks : Kind → List Outcome)
    (as : List Action) (c : Config) (h : exec tasks Config.init as = some c) :
    (c.closed = true → ∀ k, (c.ext k).pc = .done ∧ (c.ext k).todo = [] ∧
      (c.ext k).sending = [] ∧ (c.ext k).sent = 0) ∧
    c.crash ≠ some .sendOnClosed ∧
    (c.main = .returned →
      ∃ recv, recv.Perm (allSends tasks) ∧ c.respData = aggregateResult recv [] ∧
        ∀ v ∈ allSends tasks, ∃ l, c.respData.get v.DataType = some l ∧ v.Value ∈ l) := by
  have hinv := exec_inv as Config.init c (Inv.init tasks) h
  refine ⟨?_, ?_, ?_⟩
  · intro hc k
    obtain ⟨d1, d2, d3, d4, _⟩ := hinv.done_of_closed hc k
    exact ⟨d1, d2, d3, d4⟩
  · intro hc
    obtain ⟨p, _, hp, _⟩ := hinv.crash_ok _ hc
    cases hp
  · intro hm
    obtain ⟨recv, hperm, hres⟩ := hinv.returned hm
    refine ⟨recv, hperm, hres, ?_⟩
    intro v hv
    rw [hres]
    exact aggregateResult_mem recv v (hperm.mem_iff.mpr hv)

/-- The coordinator neither deadlocks nor runs forever: a reachable
configuration that is not final can take a step, no run from the start is
longer than the starting weight, and some run ends in a final configuration,
which is a returned one when no per-match goroutine panics. -/
theorem coordinator_terminates (tasks : Kind → List Outcome) :
    (∀ as c, exec tasks Config.init as = some c → ¬ c.final →
      ∃ a, (step tasks c a).isSome = true) ∧
    (∀ as c, exec tasks Config.init as = some c →
      as.length ≤ Config.init.weight tasks) ∧
    (∃ as c, exec tasks Config.init as = some c ∧ c.final) ∧
    ((∀ k p, Except.error p ∉ tasks k) →
      ∃ as c, exec tasks Config.init as = some c ∧ c.main = .returned ∧ c.crash = none) := by
  refine ⟨?_, ?_, ?_, ?_⟩
  · intro as c h hf
    exact (exec_inv as Config.init c (Inv.init tasks) h).progress hf
  · intro as c h
    have := exec_weight as Config.init c h
    omega
  · exact Inv.reaches_final _ _ (Inv.init tasks) (le_refl _)
  · intro hp
    obtain ⟨as, c, he, hf⟩ := Inv.reaches_final _ _ (Inv.init tasks) (le_refl _)
    have hinv := exec_inv as Config.init c (Inv.init tasks) he
    have hcr := hinv.no_crash hp
    refine ⟨as, c, he, ?_, hcr⟩
    rcases hf with hf | hf
    · exact hf
    · exact absurd hcr hf

theorem channel_closed_after_all_producers_witness :
    ∃ c, exec sampleTasks Config.init sampleSchedule = some c ∧
      c.main = .returned ∧ c.closed = true ∧
      c.respData = [("emoticons", [.str (str "emoticonnnnnnnn")]),
        ("mentions", [.str (str "bob")])] ∧
      (∀ k, (c.ext k).pc = .done ∧ (c.ext k).todo = [] ∧
        (c.ext k).sending = [] ∧ (c.ext k).sent = 0) ∧
      c.crash ≠ some .sendOnClosed ∧
      ∃ recv, recv.Perm (allSends sampleTasks) ∧ c.respData = aggregateResult recv [] ∧
        ∀ v ∈ allSends sampleTasks, ∃ l, c.respData.get v.DataType = some l ∧ v.Value ∈ l := by
  cases h : exec sampleTasks Config.init sampleSchedule with
  | none =>
    have hs : (exec sampleTasks Config.init sampleSchedule).isSome = true := by decide
    rw [h] at hs
    cases hs
  | some c =>
    have hm : (exec sampleTasks Config.init sampleSchedule).map (fun x => x.main) =
        some .returned := by decide
    have hc : (exec sampleTasks Config.init sampleSchedule).map (fun x => x.closed) =
        some true := by decide
    have hr : (exec sampleTasks Config.init sampleSchedule).map (fun x => x.respData) =
        some [("emoticons", [.str (str "emoticonnnnnnnn")]),
          ("mentions", [.str (str "bob")])] := by decide
    rw [h] at hm hc hr
    simp only [Option.map_some', Option.some.injEq] at hm hc hr
    have T := channel_closed_after_all_producers sampleTasks sampleSchedule c h
    exact ⟨c, rfl, hm, hc, hr, T.1 hc, T.2.1, T.2.2 hm⟩

/-! ## The sequential reading of the coordinator -/

theorem spawnAll_ok (task : GoString → Except Panic (Option channelData)) :
    ∀ (l : List GoString), (∀ s ∈ l, ∀ p, task s ≠ .error p) →
      spawnAll task l = .ok (sendsOf (l.map task)) := by
  intro l
  induction l with
  | nil => intro _; rfl
  | cons s rest ih =>
    intro h
    have h2 := ih (fun x hx => h x (by simp [hx]))
    have h1 := h s (by simp)
    simp only [spawnAll, h2, List.map_cons, sendsOf]
    cases hs : task s with
    | error p => exact absurd hs (h1 p)
    | ok r =>
      cases r with
      | none => simp [List.filterMap_cons, sendsOf]
      | some v => simp [List.filterMap_cons, sendsOf]

theorem mentionTask_ok (msg v : GoString) (h : v ∈ FindAllString mentionRe msg) :
    ∃ w, mentionTask v = .ok (some ⟨MentionType, .str w⟩) := by
  obtain ⟨w, _, hw, hv⟩ := mention_shape msg v h
  exact ⟨w, mentionTask_shape v w hw hv⟩

theorem emoticonTask_ok (msg s : GoString) (h : s ∈ FindAllString emoticonRe msg) :
    ∃ r, emoticonTask s = .ok r := by
  obtain ⟨w, _, hw, rfl⟩ := emoticon_shape msg s h
  exact ⟨_, emoticonTask_shape w hw⟩

/-- Only a fetch task can panic. -/
theorem tasksOf_no_panic (w : World) (msg : GoString)
    (hu : ∀ u ∈ fetchArgs msg, ∀ p, urlTask w u ≠ .error p) :
    ∀ k p, Except.error p ∉ tasksOf w msg k := by
  intro k p hmem
  cases k with
  | mention =>
    simp only [tasksOf, List.mem_map] at hmem
    obtain ⟨v, hv, he⟩ := hmem
    obtain ⟨x, hx⟩ := mentionTask_ok msg v hv
    rw [hx] at he
    cases he
  | emoticon =>
    simp only [tasksOf, List.mem_map] at hmem
    obtain ⟨v, hv, he⟩ := hmem
    obtain ⟨x, hx⟩ := emoticonTask_ok msg v hv
    rw [hx] at he
    cases he
  | url =>
    simp only [tasksOf, List.mem_map] at hmem
    obtain ⟨u, hu1, he⟩ := hmem
    exact hu u hu1 p he

/-- When no fetch task panics, `processMsgHelper` returns the aggregate of
all sends in their order of arrival, and a nil error. -/
theorem processMsgHelper_ok (w : World) (msg : GoString)
    (hu : ∀ u ∈ fetchArgs msg, ∀ p, urlTask w u ≠ .error p) :
    (processMsgHelper w msg).res =
      .ok (aggregateResult (w.arrival (allSends (tasksOf w msg))) [], none) := by
  have hm : processMentions msg = .ok (sendsOf (tasksOf w msg .mention)) := by
    apply spawnAll_ok
    intro s hs p he
    obtain ⟨x, hx⟩ := mentionTask_ok msg s hs
    rw [hx] at he
    cases he
  have he : processEmoticons msg = .ok (sendsOf (tasksOf w msg .emoticon)) := by
    apply spawnAll_ok
    intro s hs p he
    obtain ⟨x, hx⟩ := emoticonTask_ok msg s hs
    rw [hx] at he
    cases he
  have hurl : processUrls w msg = .ok (sendsOf (tasksOf w msg .url)) :=
    spawnAll_ok _ _ hu
  simp only [processMsgHelper, hm, he, hurl, allSends]

/-- A fetch that fails at the network step or at the parse step sends
nothing. -/
theorem urlTask_failed (w : World) (u : GoString)
    (h : w.Get u = none ∨ ∃ body, w.Get u = some body ∧ w.Parse body = none) :
    urlTask w u = .ok none := by
  rcases h with h | ⟨body, h1, h2⟩
  · simp [urlTask, h]
  · simp [urlTask, h1, h2]

/-- A fetch task panics only on a parsed tree whose first `title` element has
no child. -/
theorem urlTask_panics_iff (w : World) (u : GoString) (p : Panic) :
    urlTask w u = .error p ↔
      ∃ body d t, w.Get u = some body ∧ w.Parse body = some d ∧
        firstTitle d = some t ∧ t.children = [] ∧ p = .nilDeref := by
  cases hg : w.Get u with
  | none => simp [urlTask, hg]
  | some body =>
    cases hp : w.Parse body with
    | none => simp [urlTask, hg, hp]
    | some d =>
      simp only [urlTask, hg, hp, Option.some.injEq, exists_and_left, exists_eq_left']
      rw [parseTitle_eq d]
      unfold firstTitle
      cases hf : (preorder d).find? isTitle with
      | none => simp [titleResult]
      | some t =>
        cases hc : t.children with
        | nil =>
          simp only [titleResult, hc]
          constructor
          · intro h
            cases h
            exact ⟨t, rfl, hc, rfl⟩
          · rintro ⟨t2, h1, _, h3⟩
            rw [h3]
        | cons x xs =>
          simp only [titleResult, hc]
          constructor
          · intro h; cases h
          · rintro ⟨t2, h1, h2, _⟩
            cases h1
            rw [hc] at h2
            cases h2

/-- For a non-empty message none of whose pages has a childless first
`title` element, `processMsg` answers 200 with the aggregate of all sends,
whatever fetches fail. -/
theorem processMsg_ok (w : World) (r : Request) (hne : r.FormValue "message" ≠ [])
    (hu : ∀ u ∈ fetchArgs (r.FormValue "message"), ∀ p, urlTask w u ≠ .error p) :
    (processMsg w r).res = .ok ⟨200, "", some (aggregateResult
      (w.arrival (allSends (tasksOf w (r.FormValue "message")))) [])⟩ := by
  have hl : (r.FormValue "message").length ≠ 0 := by
    intro h
    exact hne (List.length_eq_zero.mp h)
  simp only [processMsg, if_neg hl, processMsgHelper_ok w _ hu]
  rfl

theorem processMsg_ok_witness :
    (processMsg offline (post "see http://ab @bob")).res =
      .ok ⟨200, "", some [("mentions", [.str (str "bob")])]⟩ :=
  processMsg_ok offline (post "see http://ab @bob") (by decide)
    (fun u _ p h => by
      rw [urlTask_failed offline u (Or.inl rfl)] at h
      cases h)

/-! ## The URL pattern: what a fetch task receives -/

theorem den_star_lit {b : Nat} {c e : Cursor} (h : Den (.star (lit b)) c e) :
    ∃ k, Span c e (List.replicate k b) := by
  obtain ⟨w, hw, hs⟩ := den_star_cls h
  refine ⟨w.length, ?_⟩
  have : w = List.replicate w.length b := by
    rw [List.eq_replicate_iff]
    exact ⟨rfl, fun x hx => by simpa using hw x hx⟩
  rw [← this]
  exact hs

theorem den_lits_http {c e : Cursor} (h : Den (lits (str "http")) c e) :
    Span c e (str "http") := by
  simp only [lits, str] at h
  cases h with
  | seq a1 a2 =>
    cases a2 with
    | seq a2 a3 =>
      cases a3 with
      | seq a3 a4 =>
        exact (((den_lit a1).trans (den_lit a2)).trans (den_lit a3)).trans (den_lit a4)

theorem den_lits_sep {c e : Cursor} (h : Den (lits (str "://")) c e) :
    Span c e (str "://") := by
  simp only [lits, str] at h
  cases h with
  | seq a1 a2 =>
    cases a2 with
    | seq a2 a3 =>
      exact ((den_lit a1).trans (den_lit a2)).trans (den_lit a3)

theorem den_word_or_digit {c e : Cursor}
    (h : Den (.alt (.cls isWord) (.cls isDigit)) c e) :
    ∃ a, isWord a = true ∧ Span c e [a] := by
  cases h with
  | altL x =>
    obtain ⟨a, ha, hs⟩ := den_cls x
    exact ⟨a, ha, hs⟩
  | altR x =>
    obtain ⟨a, ha, hs⟩ := den_cls x
    refine ⟨a, ?_, hs⟩
    simp [isDigit] at ha
    simp [isWord]
    omega

/-- A match of the URL pattern: `http`, some `s`, `://`, a word character,
and the rest. -/
theorem url_shape (msg v : GoString) (h : v ∈ FindAllString urlRe msg) :
    ∃ k a rest, isWord a = true ∧
      v = str "http" ++ List.replicate k 115 ++ str "://" ++ a :: rest := by
  obtain ⟨s, e, hd, hv⟩ := FindAllString_sound _ _ _ h
  unfold urlRe at hd
  cases hd with
  | seq h1 h2 =>
    cases h2 with
    | seq h2 h3 =>
      cases h3 with
      | seq h3 h4 =>
        cases h4 with
        | seq h4 h5 =>
          have s1 := den_lits_http h1
          obtain ⟨k, s2⟩ := den_star_lit h2
          have s3 := den_lits_sep h3
          obtain ⟨t, s5⟩ := den_span_general h5
          cases h4 with
          | plus b1 b2 =>
            obtain ⟨t2, s42⟩ := den_span_general b2
            obtain ⟨a, ha, s41⟩ := den_word_or_digit b1
            have := (((((s1.trans s2).trans s3).trans s41).trans s42).trans s5).take
            rw [this] at hv
            refine ⟨k, a, t2 ++ t, ha, ?_⟩
            rw [hv]
            simp [List.append_assoc]

theorem trimLeftWith_stop (table : List GoString)
    (hb : ∀ e ∈ table, ∀ x ∈ e, x < 33 ∨ 128 ≤ x) (b : Nat) (y : GoString)
    (h1 : 33 ≤ b) (h2 : b < 128) :
    ∀ (fuel : Nat) (x : GoString),
      ∃ x2, trimLeftWith table fuel (x ++ b :: y) = x2 ++ b :: y := by
  intro fuel
  induction fuel with
  | zero => intro x; exact ⟨x, rfl⟩
  | succ n ih =>
    intro x
    simp only [trimLeftWith]
    cases hf : table.find? (fun e => e.isPrefixOf (x ++ b :: y)) with
    | none => exact ⟨x, rfl⟩
    | some e =>
      have hmem := List.mem_of_find?_eq_some hf
      have hpre := List.find?_some hf
      simp only [List.isPrefixOf_iff_prefix] at hpre
      obtain ⟨t, ht⟩ := hpre
      have hle : e.length ≤ x.length := by
        by_contra hgt
        have hlt : x.length < e.length := by omega
        have hbe : b ∈ e := by
          have h3 : (e ++ t)[x.length]? = some b := by
            rw [ht, List.getElem?_append_right (le_refl _)]
            simp
          rw [List.getElem?_append_left hlt] at h3
          exact List.getElem?_mem h3
        have := hb e hmem b hbe
        omega
      simp only
      rw [List.drop_append_of_le_length hle]
      exact ih (x.drop e.length)

/-- Trimming keeps a string up to its last byte that is neither white space
nor above ASCII, when it starts with such a byte. -/
theorem TrimSpace_keeps (h0 b : Nat) (p t : GoString) (ha : 33 ≤ h0 ∧ h0 < 128)
    (hb : 33 ≤ b ∧ b < 128) :
    ∃ t2, TrimSpace (h0 :: (p ++ b :: t)) = h0 :: (p ++ b :: t2) := by
  unfold TrimSpace
  simp only
  rw [trimLeftWith_keep spaceRunes spaceRunes_bytes spaceRunes_ne_nil h0 _ ha.1 ha.2]
  have hrev : (h0 :: (p ++ b :: t)).reverse = t.reverse ++ b :: (h0 :: p).reverse := by
    simp
  rw [hrev]
  obtain ⟨x2, hx⟩ := trimLeftWith_stop (spaceRunes.map List.reverse) spaceRunes_rev_bytes b
    (h0 :: p).reverse hb.1 hb.2 (h0 :: (p ++ b :: t)).length t.reverse
  rw [hx]
  exact ⟨x2.reverse, by simp⟩

/-- What every fetch task receives: `http`, zero or more `s`, `://`, and at
least one word character. -/
theorem fetchArgs_shape (msg u : GoString) (h : u ∈ fetchArgs msg) :
    ∃ k a rest, isWord a = true ∧
      u = str "http" ++ List.replicate k 115 ++ str "://" ++ a :: rest := by
  simp only [fetchArgs, List.mem_map] at h
  obtain ⟨v, hv, rfl⟩ := h
  obtain ⟨k, a, rest, ha, rfl⟩ := url_shape msg v hv
  have hr := isWord_range ha
  have hs : str "http" ++ List.replicate k 115 ++ str "://" ++ a :: rest =
      104 :: (([116, 116, 112] ++ List.replicate k 115 ++ str "://") ++ a :: rest) := by
    simp [str]
  rw [hs]
  obtain ⟨t2, ht⟩ := TrimSpace_keeps 104 a ([116, 116, 112] ++ List.replicate k 115 ++ str "://")
    rest (by omega) (by omega)
  rw [ht]
  exact ⟨k, a, t2, ha, rfl⟩

end MEU
